import Mathlib

/-!
Verification of the SSML parser library (`ssml.py`).

The development shallowly embeds the Python module: the entity codec
(`escapeXMLChars` / `unescapeXMLChars`), the node model (`SSMLTag` / `SSMLText`),
the recursive-descent parser `parseSSML` with its nested `Parser` class, and the
serializer `ssmlNodeToText`.

Conventions of the embedding:
* Python strings are represented as `String` at the interface and as `List Char`
  (with `String.data`) inside the parser; the parser cursor `self.pos` is an
  absolute `Nat` index into that character list, matching Python character
  indexing.
* `raise ValueError(msg)` is modelled by `Except.error` with a structured error
  type `ParseErr`; each constructor corresponds to one `raise` site and carries
  exactly the data interpolated into that site's message.  `errMsg` renders the
  exact Python message text.
* The two `while True:` loops (`parse_attributes`, `parse_children`) and the
  mutual recursion `parse_element` / `parse_children` are embedded with an
  explicit fuel argument; `none` means the fuel ran out.  The top entry point
  supplies fuel `2 * length + 1`, which is proved sufficient below
  (`parseSSMLCore_isSome`), so the fueled functions compute exactly the Python
  recursion.
-/

/-- The set of characters for which Python `str.isspace()` returns `True`. -/
def pyIsSpace (c : Char) : Bool :=
  [' ', '\t', '\n', '\r', '\x0b', '\x0c',
   '\x1c', '\x1d', '\x1e', '\x1f', '\x85', '\xa0',
   ' ', ' ', ' ', ' ', ' ', ' ', ' ',
   ' ', ' ', ' ', ' ', ' ',
   ' ', ' ', ' ', ' ', '　'].contains c

/-- Python `text.replace("<", "&lt;")`: single-character pattern, so a
character-by-character traversal is exactly the left-to-right global
replacement. -/
def replLtEnc : List Char → List Char
  | [] => []
  | c :: cs => if c = '<' then '&' :: 'l' :: 't' :: ';' :: replLtEnc cs else c :: replLtEnc cs

/-- Python `text.replace(">", "&gt;")`. -/
def replGtEnc : List Char → List Char
  | [] => []
  | c :: cs => if c = '>' then '&' :: 'g' :: 't' :: ';' :: replGtEnc cs else c :: replGtEnc cs

/-- Python `text.replace("&", "&amp;")`. -/
def replAmpEnc : List Char → List Char
  | [] => []
  | c :: cs => if c = '&' then '&' :: 'a' :: 'm' :: 'p' :: ';' :: replAmpEnc cs else c :: replAmpEnc cs

/-- Python `text.replace("&lt;", "<")`: left-to-right, non-overlapping
replacement of the four-character pattern. -/
def replLtDec : List Char → List Char
  | '&' :: 'l' :: 't' :: ';' :: cs => '<' :: replLtDec cs
  | c :: cs => c :: replLtDec cs
  | [] => []

/-- Python `text.replace("&gt;", ">")`. -/
def replGtDec : List Char → List Char
  | '&' :: 'g' :: 't' :: ';' :: cs => '>' :: replGtDec cs
  | c :: cs => c :: replGtDec cs
  | [] => []

/-- Python `text.replace("&amp;", "&")`. -/
def replAmpDec : List Char → List Char
  | '&' :: 'a' :: 'm' :: 'p' :: ';' :: cs => '&' :: replAmpDec cs
  | c :: cs => c :: replAmpDec cs
  | [] => []

/-- List-level body of `escapeXMLChars`: the three replacements in source
order `<` then `>` then `&`. -/
def escapeL (l : List Char) : List Char := replAmpEnc (replGtEnc (replLtEnc l))

/-- List-level body of `unescapeXMLChars`: `&lt;` then `&gt;` then `&amp;`. -/
def unescapeL (l : List Char) : List Char := replAmpDec (replGtDec (replLtDec l))

/-- `escapeXMLChars` from ssml.py:
`text.replace("<", "&lt;").replace(">", "&gt;").replace("&", "&amp;")`. -/
def escapeXMLChars (text : String) : String := String.mk (escapeL text.data)

/-- `unescapeXMLChars` from ssml.py:
`text.replace("&lt;", "<").replace("&gt;", ">").replace("&amp;", "&")`. -/
def unescapeXMLChars (text : String) : String := String.mk (unescapeL text.data)

/-- The node model of ssml.py: `SSMLText(text)` and
`SSMLTag(name, attributes, children)`.  The Python attribute dict is an
insertion-ordered mapping with unique keys, embedded as an association list
manipulated only through `dictInsert`. -/
inductive SSMLNode where
  | text (content : String)
  | tag (name : String) (attributes : List (String × String)) (children : List SSMLNode)

mutual

def nodeDecEq : (a b : SSMLNode) → Decidable (a = b)
  | .text s, .text t =>
    match decEq s t with
    | isTrue h => isTrue (by rw [h])
    | isFalse h => isFalse (by intro hh; injection hh; contradiction)
  | .text _, .tag _ _ _ => isFalse (by intro h; cases h)
  | .tag _ _ _, .text _ => isFalse (by intro h; cases h)
  | .tag n1 a1 c1, .tag n2 a2 c2 =>
    match decEq n1 n2 with
    | isFalse h => isFalse (by intro hh; injection hh; contradiction)
    | isTrue h1 =>
      match decEq a1 a2 with
      | isFalse h => isFalse (by intro hh; injection hh; contradiction)
      | isTrue h2 =>
        match listNodeDecEq c1 c2 with
        | isFalse h => isFalse (by intro hh; injection hh; contradiction)
        | isTrue h3 => isTrue (by rw [h1, h2, h3])

def listNodeDecEq : (a b : List SSMLNode) → Decidable (a = b)
  | [], [] => isTrue rfl
  | [], _ :: _ => isFalse (by intro h; cases h)
  | _ :: _, [] => isFalse (by intro h; cases h)
  | x :: xs, y :: ys =>
    match nodeDecEq x y with
    | isFalse h => isFalse (by intro hh; injection hh; contradiction)
    | isTrue h1 =>
      match listNodeDecEq xs ys with
      | isFalse h => isFalse (by intro hh; injection hh; contradiction)
      | isTrue h2 => isTrue (by rw [h1, h2])

end

instance : DecidableEq SSMLNode := nodeDecEq

/-- One constructor per `raise ValueError(...)` site of ssml.py, carrying the
data interpolated into that site's message. -/
inductive ParseErr where
  | mustStartWithTag
  | extraContent
  | rootMustBeSpeak
  | expectedLt (pos : Nat)
  | malformedTag (pos : Nat)
  | expectedTagName (pos : Nat)
  | expectedEq (pos : Nat)
  | expectedAttrName (pos : Nat)
  | expectedAttrValue (pos : Nat)
  | expectedDoubleQuote (pos : Nat)
  | attrValueNotClosed (start : Nat)
  | missingClosingTag (name : String)
  | expectedGtClosing (pos : Nat)
  | mismatchedClosingTag (expected found : String)
deriving Repr, DecidableEq

/-- The exact message string from each `raise ValueError(...)` in ssml.py. -/
def errMsg : ParseErr → String
  | .mustStartWithTag => "SSML must start with an opening tag"
  | .extraContent => "Extra content after root element"
  | .rootMustBeSpeak => "Root element must be <speak>"
  | .expectedLt p => "Expected \x27<\x27 at position " ++ toString p
  | .malformedTag p => "Malformed tag at position " ++ toString p ++ ": expected \x27>\x27 or \x27/>\x27"
  | .expectedTagName p => "Expected tag name at position " ++ toString p
  | .expectedEq p => "Expected \x27=\x27 after attribute name at position " ++ toString p
  | .expectedAttrName p => "Expected attribute name at position " ++ toString p
  | .expectedAttrValue p => "Expected attribute value at position " ++ toString p
  | .expectedDoubleQuote p => "Expected double quote for attribute value at position " ++ toString p
  | .attrValueNotClosed st => "Attribute value not closed starting at position " ++ toString st
  | .missingClosingTag n => "Missing closing tag for <" ++ n ++ ">"
  | .expectedGtClosing p => "Expected \x27>\x27 at end of closing tag at position " ++ toString p
  | .mismatchedClosingTag a b =>
    "Mismatched closing tag: expected </" ++ a ++ "> but found </" ++ b ++ ">"

/-- The cursor offset interpolated into the message, when the site has one. -/
def errOffset : ParseErr → Option Nat
  | .expectedLt p => some p
  | .malformedTag p => some p
  | .expectedTagName p => some p
  | .expectedEq p => some p
  | .expectedAttrName p => some p
  | .expectedAttrValue p => some p
  | .expectedDoubleQuote p => some p
  | .attrValueNotClosed st => some st
  | .expectedGtClosing p => some p
  | _ => none

/-- Python `attrs[attr_name] = attr_value` on an insertion-ordered dict:
an existing key keeps its position and gets the new value, a new key is
appended at the end. -/
def dictInsert (attrs : List (String × String)) (k v : String) : List (String × String) :=
  if attrs.any (fun p => p.1 == k) then attrs.map (fun p => if p.1 == k then (k, v) else p)
  else attrs ++ [(k, v)]

/-- Length of the longest prefix whose characters all satisfy `p`; the common
shape of every scanning `while` loop of the parser. -/
def scanCount (p : Char → Bool) : List Char → Nat
  | [] => 0
  | c :: cs => if p c then scanCount p cs + 1 else 0

/-- `Parser.skip_whitespace`: advance the cursor over `str.isspace()`
characters. -/
def skipWs (t : List Char) (pos : Nat) : Nat := pos + scanCount pyIsSpace (t.drop pos)

/-- `Parser.startswith(s)`: `self.text[self.pos : self.pos+len(s)] == s`. -/
def startswith (t : List Char) (pos : Nat) (s : List Char) : Bool :=
  (t.drop pos).take s.length == s

/-- A character at which `parse_tag_name` keeps scanning: not whitespace, not
`/`, not `>`. -/
def tagNameChar (c : Char) : Bool := !(pyIsSpace c) && !(c == '/') && !(c == '>')

/-- A character at which `parse_attr_name` keeps scanning: additionally stops
at `=`. -/
def attrNameChar (c : Char) : Bool := !(pyIsSpace c) && !(c == '=') && !(c == '/') && !(c == '>')

/-- `Parser.parse_tag_name`: scan while the character is not whitespace, `/`
or `>`; a zero-length run is an error at the current offset.  Returns the name
and the new cursor. -/
def parse_tag_name (t : List Char) (pos : Nat) : Except ParseErr (String × Nat) :=
  let n := scanCount tagNameChar (t.drop pos)
  if n = 0 then .error (.expectedTagName pos)
  else .ok (String.mk ((t.drop pos).take n), pos + n)

/-- `Parser.parse_attr_name`: like `parse_tag_name` but also stops at `=`. -/
def parse_attr_name (t : List Char) (pos : Nat) : Except ParseErr (String × Nat) :=
  let n := scanCount attrNameChar (t.drop pos)
  if n = 0 then .error (.expectedAttrName pos)
  else .ok (String.mk ((t.drop pos).take n), pos + n)

/-- `Parser.parse_attr_value`: require a double quote, scan to the closing
double quote, unescape the delimited text. -/
def parse_attr_value (t : List Char) (pos : Nat) : Except ParseErr (String × Nat) :=
  if t.length ≤ pos then .error (.expectedAttrValue pos)
  else if t[pos]? ≠ some '"' then .error (.expectedDoubleQuote pos)
  else
    let start := pos + 1
    let n := scanCount (fun c => !(c == '"')) (t.drop start)
    if t.length ≤ start + n then .error (.attrValueNotClosed start)
    else .ok (unescapeXMLChars (String.mk ((t.drop start).take n)), start + n + 1)

/-- `Parser.parse_text`: scan greedily up to (excluding) the next `<` and
unescape; never fails. -/
def parse_text (t : List Char) (pos : Nat) : SSMLNode × Nat :=
  let n := scanCount (fun c => !(c == '<')) (t.drop pos)
  (.text (unescapeXMLChars (String.mk ((t.drop pos).take n))), pos + n)

/-- `Parser.parse_attributes`: the `while True` loop, with the accumulated
dict `attrs` and explicit fuel for the loop (one unit per iteration). -/
def parse_attributes (fuel : Nat) (t : List Char) (attrs : List (String × String)) (pos : Nat) :
    Option (Except ParseErr (List (String × String) × Nat)) :=
  match fuel with
  | 0 => none
  | fuel + 1 =>
    let pos := skipWs t pos
    if t.length ≤ pos ∨ t[pos]? = some '/' ∨ t[pos]? = some '>' then some (.ok (attrs, pos))
    else
      match parse_attr_name t pos with
      | .error e => some (.error e)
      | .ok (attr_name, pos1) =>
        let pos2 := skipWs t pos1
        if t.length ≤ pos2 ∨ t[pos2]? ≠ some '=' then some (.error (.expectedEq pos2))
        else
          let pos3 := skipWs t (pos2 + 1)
          match parse_attr_value t pos3 with
          | .error e => some (.error e)
          | .ok (attr_value, pos4) =>
            parse_attributes fuel t (dictInsert attrs attr_name attr_value) pos4

mutual

/-- `Parser.parse_element`: consume `<`, a tag name and attributes, then
either the self-closing `/>` or `>` followed by children.  The inner
`parse_attributes` loop gets fuel `t.length + 1`, proved sufficient below. -/
def parse_element (fuel : Nat) (t : List Char) (pos : Nat) :
    Option (Except ParseErr (SSMLNode × Nat)) :=
  match fuel with
  | 0 => none
  | fuel + 1 =>
    if t[pos]? ≠ some '<' then some (.error (.expectedLt pos))
    else
      let posA := skipWs t (pos + 1)
      match parse_tag_name t posA with
      | .error e => some (.error e)
      | .ok (tag_name, pos1) =>
        let pos2 := skipWs t pos1
        match parse_attributes (t.length + 1) t [] pos2 with
        | none => none
        | some (.error e) => some (.error e)
        | some (.ok (attributes, pos3)) =>
          let pos4 := skipWs t pos3
          if startswith t pos4 ['/', '>'] then
            some (.ok (.tag tag_name attributes [], pos4 + 2))
          else if t[pos4]? = some '>' then
            match parse_children fuel t tag_name [] (pos4 + 1) with
            | none => none
            | some (.error e) => some (.error e)
            | some (.ok (children, pos5)) =>
              some (.ok (.tag tag_name attributes children, pos5))
          else some (.error (.malformedTag pos4))

/-- `Parser.parse_children`: the `while True` loop with accumulator `acc`;
whitespace is deliberately not skipped at the top of an iteration. -/
def parse_children (fuel : Nat) (t : List Char) (tag_name : String)
    (acc : List SSMLNode) (pos : Nat) :
    Option (Except ParseErr (List SSMLNode × Nat)) :=
  match fuel with
  | 0 => none
  | fuel + 1 =>
    if t.length ≤ pos then some (.error (.missingClosingTag tag_name))
    else if startswith t pos ['<', '/'] then
      let posA := skipWs t (pos + 2)
      match parse_tag_name t posA with
      | .error e => some (.error e)
      | .ok (closing_tag, pos1) =>
        let pos2 := skipWs t pos1
        if t.length ≤ pos2 ∨ t[pos2]? ≠ some '>' then some (.error (.expectedGtClosing pos2))
        else if closing_tag ≠ tag_name then
          some (.error (.mismatchedClosingTag tag_name closing_tag))
        else some (.ok (acc, pos2 + 1))
    else if t[pos]? = some '<' then
      match parse_element fuel t pos with
      | none => none
      | some (.error e) => some (.error e)
      | some (.ok (child, pos1)) => parse_children fuel t tag_name (acc ++ [child]) pos1
    else
      let tx := parse_text t pos
      parse_children fuel t tag_name (acc ++ [tx.1]) tx.2

end

/-- `Parser.parse` composed with the construction in `parseSSML`: skip leading
whitespace, require an opening `<`, parse the root element, skip trailing
whitespace, require end of input, require the root to be a tag named
`speak`.  `none` means the (sufficient) fuel ran out. -/
def parseSSMLCore (s : String) : Option (Except ParseErr SSMLNode) :=
  let t := s.data
  let pos := skipWs t 0
  if t.length ≤ pos ∨ t[pos]? ≠ some '<' then some (.error .mustStartWithTag)
  else
    match parse_element (2 * t.length + 1) t pos with
    | none => none
    | some (.error e) => some (.error e)
    | some (.ok (node, pos1)) =>
      let pos2 := skipWs t pos1
      if pos2 ≠ t.length then some (.error .extraContent)
      else
        match node with
        | .tag nm _ _ => if nm = "speak" then some (.ok node) else some (.error .rootMustBeSpeak)
        | .text _ => some (.error .rootMustBeSpeak)

/-- `parseSSML` from ssml.py.  The `getD` default is dead code: by
`parseSSMLCore_isSome` the core never runs out of fuel. -/
def parseSSML (s : String) : Except ParseErr SSMLNode :=
  (parseSSMLCore s).getD (.error .mustStartWithTag)

instance exceptDecEq {ε α : Type} [DecidableEq ε] [DecidableEq α] : DecidableEq (Except ε α)
  | .error e1, .error e2 =>
    match decEq e1 e2 with
    | isTrue h => isTrue (by rw [h])
    | isFalse h => isFalse (by intro hh; injection hh; contradiction)
  | .error _, .ok _ => isFalse (by intro h; cases h)
  | .ok _, .error _ => isFalse (by intro h; cases h)
  | .ok a1, .ok a2 =>
    match decEq a1 a2 with
    | isTrue h => isTrue (by rw [h])
    | isFalse h => isFalse (by intro hh; injection hh; contradiction)

/-- Serialization of one attribute dict, matching the Python loop
`attrs += f' {key}="{escapeXMLChars(value)}"'`. -/
def serAttrs : List (String × String) → List Char
  | [] => []
  | (k, v) :: rest =>
    [' '] ++ k.data ++ ['='] ++ ['"'] ++ escapeL v.data ++ ['"'] ++ serAttrs rest

mutual

/-- List-level body of `ssmlNodeToText`: a text node emits its escaped
content; a tag emits `<name attrs>` then the children then `</name>`. -/
def serNode : SSMLNode → List Char
  | .text s => escapeL s.data
  | .tag n a cs =>
    ['<'] ++ n.data ++ serAttrs a ++ ['>'] ++ serList cs ++ ['<', '/'] ++ n.data ++ ['>']

/-- Serialization of a children list in order, matching
`"".join(ssmlNodeToText(child) for child in node.children)`. -/
def serList : List SSMLNode → List Char
  | [] => []
  | c :: rest => serNode c ++ serList rest

end

/-- `ssmlNodeToText` from ssml.py.  (The Python `else: raise` branch for an
unknown node type is unreachable for the closed node union.) -/
def ssmlNodeToText (node : SSMLNode) : String := String.mk (serNode node)

/-- Whether a node is an `SSMLText` (Python `isinstance(node, SSMLText)`). -/
def isTextNode : SSMLNode → Bool
  | .text _ => true
  | .tag _ _ _ => false

/-- Whether `pat` occurs as a contiguous run inside `l`. -/
def containsSeq (pat : List Char) : List Char → Bool
  | [] => pat == []
  | c :: rest => ((c :: rest).take pat.length == pat) || containsSeq pat rest

/-- A name as `parse_tag_name` can produce it: nonempty, and no whitespace,
`/` or `>` characters. -/
def nameWF (n : String) : Bool := !n.data.isEmpty && n.data.all tagNameChar

/-- An attribute key as `parse_attr_name` can produce it. -/
def attrKeyWF (k : String) : Bool := !k.data.isEmpty && k.data.all attrNameChar

/-- An attribute value with no double quote and no ampersand: such a value is
scanned back verbatim and left unchanged by `unescapeXMLChars`. -/
def valWF (v : String) : Bool := v.data.all (fun c => !(c == '"') && !(c == '&'))

/-- No two adjacent text children: `parse_children` can only start a text run
when the current character is not `<`, and a text run ends at `<` or at end of
input, so a text child is never immediately followed by another text child. -/
def adjOK : List SSMLNode → Bool
  | [] => true
  | [_] => true
  | a :: b :: rest => !(isTextNode a && isTextNode b) && adjOK (b :: rest)

/-- The attribute dict invariant established by `parse_attributes`: unique
keys, `parse_attr_name`-shaped keys, values free of double quotes. -/
def keysDistinct : List (String × String) → Bool
  | [] => true
  | (k, _) :: rest => !(rest.any (fun p => p.1 == k)) && keysDistinct rest

def attrsWF (a : List (String × String)) : Bool :=
  keysDistinct a &&
    a.all (fun kv => attrKeyWF kv.1 && kv.2.data.all (fun c => !(c == '"')))

mutual

/-- Structural invariant of every tree produced by the parser: nonempty text
runs, well-formed tag names, well-formed attribute dicts, and no two adjacent
text children. -/
def nodeWF : SSMLNode → Bool
  | .text s => !s.data.isEmpty
  | .tag n a cs => nameWF n && attrsWF a && adjOK cs && listWF cs

def listWF : List SSMLNode → Bool
  | [] => true
  | c :: rest => nodeWF c && listWF rest

end

mutual

/-- No `<` or `>` character in any text content or attribute value of the
tree (tag names are unconstrained). -/
def nodeNoAngle : SSMLNode → Bool
  | .text s => s.data.all (fun c => !(c == '<') && !(c == '>'))
  | .tag _ a cs =>
    a.all (fun kv => kv.2.data.all (fun c => !(c == '<') && !(c == '>'))) && listNoAngle cs

def listNoAngle : List SSMLNode → Bool
  | [] => true
  | c :: rest => nodeNoAngle c && listNoAngle rest

end

mutual

/-- Every text node anywhere in the tree has nonempty content. -/
def nodeTextsOK : SSMLNode → Bool
  | .text s => !s.data.isEmpty
  | .tag _ _ cs => listTextsOK cs

def listTextsOK : List SSMLNode → Bool
  | [] => true
  | c :: rest => nodeTextsOK c && listTextsOK rest

end

/-- Folding `attrs[name] = value` over a list of pairs, as the
`parse_attributes` loop does. -/
def foldDict (acc : List (String × String)) (l : List (String × String)) :
    List (String × String) :=
  l.foldl (fun m kv => dictInsert m kv.1 kv.2) acc

example : parseSSML "<speak></speak>" = .ok (.tag "speak" [] []) := by decide
example : parseSSML "<speak>Hello</speak>" = .ok (.tag "speak" [] [.text "Hello"]) := by decide
example :
    parseSSML "<speak><voice name=\"Joanna\">Hi</voice></speak>" =
      .ok (.tag "speak" [] [.tag "voice" [("name", "Joanna")] [.text "Hi"]]) := by decide
example :
    parseSSML "<speak>a<br/>b</speak>" =
      .ok (.tag "speak" [] [.text "a", .tag "br" [] [], .text "b"]) := by decide
example : parseSSML "not-a-tag" = .error .mustStartWithTag := by decide
example : parseSSML "<speak><voice></speak>" =
    .error (.mismatchedClosingTag "voice" "speak") := by decide
example : parseSSML "<foo></foo>" = .error .rootMustBeSpeak := by decide
example : parseSSML "<speak> </speak>" = .ok (.tag "speak" [] [.text " "]) := by decide
example : ssmlNodeToText (.tag "speak" [("a", "b")] [.text "hi"]) = "<speak a=\"b\">hi</speak>" := by decide

/-! ### Entity-codec lemmas -/

theorem replLtDec_eq2 (c : Char) (cs : List Char)
    (hne : ∀ (cs1 : List Char), c = '&' → cs = 'l' :: 't' :: ';' :: cs1 → False) :
    replLtDec (c :: cs) = c :: replLtDec cs := by
  rw [replLtDec.eq_def]
  split
  · next h2 =>
    rw [List.cons.injEq] at h2
    exact absurd (hne _ h2.1 h2.2) (by simp)
  · next h2 => rw [List.cons.injEq] at h2; rw [h2.1, h2.2]
  · next h2 => simp at h2

theorem replGtDec_eq2 (c : Char) (cs : List Char)
    (hne : ∀ (cs1 : List Char), c = '&' → cs = 'g' :: 't' :: ';' :: cs1 → False) :
    replGtDec (c :: cs) = c :: replGtDec cs := by
  rw [replGtDec.eq_def]
  split
  · next h2 =>
    rw [List.cons.injEq] at h2
    exact absurd (hne _ h2.1 h2.2) (by simp)
  · next h2 => rw [List.cons.injEq] at h2; rw [h2.1, h2.2]
  · next h2 => simp at h2

theorem replAmpDec_eq2 (c : Char) (cs : List Char)
    (hne : ∀ (cs1 : List Char), c = '&' → cs = 'a' :: 'm' :: 'p' :: ';' :: cs1 → False) :
    replAmpDec (c :: cs) = c :: replAmpDec cs := by
  rw [replAmpDec.eq_def]
  split
  · next h2 =>
    rw [List.cons.injEq] at h2
    exact absurd (hne _ h2.1 h2.2) (by simp)
  · next h2 => rw [List.cons.injEq] at h2; rw [h2.1, h2.2]
  · next h2 => simp at h2

theorem replLtDec_cons_ne (c : Char) (cs : List Char) (h : c ≠ '&') :
    replLtDec (c :: cs) = c :: replLtDec cs :=
  replLtDec_eq2 c cs (fun _ hc _ => h hc)

theorem replGtDec_cons_ne (c : Char) (cs : List Char) (h : c ≠ '&') :
    replGtDec (c :: cs) = c :: replGtDec cs :=
  replGtDec_eq2 c cs (fun _ hc _ => h hc)

theorem replAmpDec_cons_ne (c : Char) (cs : List Char) (h : c ≠ '&') :
    replAmpDec (c :: cs) = c :: replAmpDec cs :=
  replAmpDec_eq2 c cs (fun _ hc _ => h hc)

theorem replLtEnc_eq_self (l : List Char) (h : '<' ∉ l) : replLtEnc l = l := by
  induction l with
  | nil => rfl
  | cons c cs ih =>
    simp only [List.mem_cons, not_or] at h
    rw [replLtEnc, if_neg (fun hc => h.1 hc.symm), ih h.2]

theorem replGtEnc_eq_self (l : List Char) (h : '>' ∉ l) : replGtEnc l = l := by
  induction l with
  | nil => rfl
  | cons c cs ih =>
    simp only [List.mem_cons, not_or] at h
    rw [replGtEnc, if_neg (fun hc => h.1 hc.symm), ih h.2]

theorem escapeL_eq_ampEnc (l : List Char) (h1 : '<' ∉ l) (h2 : '>' ∉ l) :
    escapeL l = replAmpEnc l := by
  rw [escapeL, replLtEnc_eq_self l h1, replGtEnc_eq_self l h2]

theorem mem_replAmpEnc (a : Char) (l : List Char) (h : a ∈ replAmpEnc l) :
    a ∈ l ∨ a ∈ ['&', 'a', 'm', 'p', ';'] := by
  induction l with
  | nil => simp [replAmpEnc] at h
  | cons c cs ih =>
    rw [replAmpEnc] at h
    by_cases hc : c = '&'
    · rw [if_pos hc] at h
      simp only [List.mem_cons] at h
      rcases h with h | h | h | h | h | h
      · exact Or.inr (by simp [h])
      · exact Or.inr (by simp [h])
      · exact Or.inr (by simp [h])
      · exact Or.inr (by simp [h])
      · exact Or.inr (by simp [h])
      · rcases ih h with h2 | h2
        · exact Or.inl (List.mem_cons_of_mem _ h2)
        · exact Or.inr h2
    · rw [if_neg hc] at h
      rcases List.mem_cons.mp h with h | h
      · exact Or.inl (by simp [h])
      · rcases ih h with h2 | h2
        · exact Or.inl (List.mem_cons_of_mem _ h2)
        · exact Or.inr h2

theorem not_mem_replAmpEnc (a : Char) (l : List Char) (h1 : a ∉ l)
    (h2 : a ∉ ['&', 'a', 'm', 'p', ';']) : a ∉ replAmpEnc l :=
  fun h => (mem_replAmpEnc a l h).elim h1 h2

theorem replAmpEnc_ne_nil (c : Char) (cs : List Char) : replAmpEnc (c :: cs) ≠ [] := by
  rw [replAmpEnc]
  split <;> simp

theorem replLtDec_ampEnc (l : List Char) : replLtDec (replAmpEnc l) = replAmpEnc l := by
  induction l with
  | nil => rfl
  | cons c cs ih =>
    by_cases hc : c = '&'
    · subst hc
      rw [replAmpEnc, if_pos rfl]
      simp only [replLtDec, ih]
    · rw [replAmpEnc, if_neg hc, replLtDec_cons_ne c _ hc, ih]

theorem replGtDec_ampEnc (l : List Char) : replGtDec (replAmpEnc l) = replAmpEnc l := by
  induction l with
  | nil => rfl
  | cons c cs ih =>
    by_cases hc : c = '&'
    · subst hc
      rw [replAmpEnc, if_pos rfl]
      simp only [replGtDec, ih]
    · rw [replAmpEnc, if_neg hc, replGtDec_cons_ne c _ hc, ih]

theorem replAmpDec_ampEnc (l : List Char) : replAmpDec (replAmpEnc l) = l := by
  induction l with
  | nil => rfl
  | cons c cs ih =>
    by_cases hc : c = '&'
    · subst hc
      rw [replAmpEnc, if_pos rfl]
      simp only [replAmpDec, ih]
    · rw [replAmpEnc, if_neg hc, replAmpDec_cons_ne c _ hc, ih]

/-- The amended codec round trip at list level: for input free of `<` and `>`
the escape chain is just ampersand encoding, which the unescape chain inverts. -/
theorem unescapeL_escapeL (l : List Char) (h1 : '<' ∉ l) (h2 : '>' ∉ l) :
    unescapeL (escapeL l) = l := by
  rw [escapeL_eq_ampEnc l h1 h2, unescapeL, replLtDec_ampEnc, replGtDec_ampEnc,
    replAmpDec_ampEnc]

theorem replLtDec_eq_self (l : List Char) (h : '&' ∉ l) : replLtDec l = l := by
  induction l with
  | nil => rfl
  | cons c cs ih =>
    simp only [List.mem_cons, not_or] at h
    rw [replLtDec_cons_ne c cs (fun hc => h.1 hc.symm), ih h.2]

theorem replGtDec_eq_self (l : List Char) (h : '&' ∉ l) : replGtDec l = l := by
  induction l with
  | nil => rfl
  | cons c cs ih =>
    simp only [List.mem_cons, not_or] at h
    rw [replGtDec_cons_ne c cs (fun hc => h.1 hc.symm), ih h.2]

theorem replAmpDec_eq_self (l : List Char) (h : '&' ∉ l) : replAmpDec l = l := by
  induction l with
  | nil => rfl
  | cons c cs ih =>
    simp only [List.mem_cons, not_or] at h
    rw [replAmpDec_cons_ne c cs (fun hc => h.1 hc.symm), ih h.2]

theorem unescapeL_eq_self (l : List Char) (h : '&' ∉ l) : unescapeL l = l := by
  rw [unescapeL, replLtDec_eq_self l h, replGtDec_eq_self l h, replAmpDec_eq_self l h]

theorem mem_replLtDec (a : Char) (l : List Char) (h : a ∈ replLtDec l) : a ∈ l ∨ a = '<' := by
  induction l using replLtDec.induct with
  | case1 cs ih =>
    simp only [replLtDec, List.mem_cons] at h
    rcases h with h | h
    · exact Or.inr h
    · rcases ih h with h2 | h2
      · exact Or.inl (by simp [h2])
      · exact Or.inr h2
  | case2 c cs hne ih =>
    rw [replLtDec_eq2 c cs hne] at h
    rcases List.mem_cons.mp h with h | h
    · exact Or.inl (by simp [h])
    · rcases ih h with h2 | h2
      · exact Or.inl (List.mem_cons_of_mem _ h2)
      · exact Or.inr h2
  | case3 => simp [replLtDec] at h

theorem mem_replGtDec (a : Char) (l : List Char) (h : a ∈ replGtDec l) : a ∈ l ∨ a = '>' := by
  induction l using replGtDec.induct with
  | case1 cs ih =>
    simp only [replGtDec, List.mem_cons] at h
    rcases h with h | h
    · exact Or.inr h
    · rcases ih h with h2 | h2
      · exact Or.inl (by simp [h2])
      · exact Or.inr h2
  | case2 c cs hne ih =>
    rw [replGtDec_eq2 c cs hne] at h
    rcases List.mem_cons.mp h with h | h
    · exact Or.inl (by simp [h])
    · rcases ih h with h2 | h2
      · exact Or.inl (List.mem_cons_of_mem _ h2)
      · exact Or.inr h2
  | case3 => simp [replGtDec] at h

theorem mem_replAmpDec (a : Char) (l : List Char) (h : a ∈ replAmpDec l) : a ∈ l ∨ a = '&' := by
  induction l using replAmpDec.induct with
  | case1 cs ih =>
    simp only [replAmpDec, List.mem_cons] at h
    rcases h with h | h
    · exact Or.inr h
    · rcases ih h with h2 | h2
      · exact Or.inl (by simp [h2])
      · exact Or.inr h2
  | case2 c cs hne ih =>
    rw [replAmpDec_eq2 c cs hne] at h
    rcases List.mem_cons.mp h with h | h
    · exact Or.inl (by simp [h])
    · rcases ih h with h2 | h2
      · exact Or.inl (List.mem_cons_of_mem _ h2)
      · exact Or.inr h2
  | case3 => simp [replAmpDec] at h

theorem mem_unescapeL (a : Char) (l : List Char) (h : a ∈ unescapeL l) :
    a ∈ l ∨ a = '<' ∨ a = '>' ∨ a = '&' := by
  rw [unescapeL] at h
  rcases mem_replAmpDec a _ h with h1 | h1
  · rcases mem_replGtDec a _ h1 with h2 | h2
    · rcases mem_replLtDec a _ h2 with h3 | h3
      · exact Or.inl h3
      · exact Or.inr (Or.inl h3)
    · exact Or.inr (Or.inr (Or.inl h2))
  · exact Or.inr (Or.inr (Or.inr h1))

theorem replLtDec_ne_nil (c : Char) (cs : List Char) : replLtDec (c :: cs) ≠ [] := by
  rw [replLtDec.eq_def]
  split
  · simp
  · next h2 => simp
  · next h2 => simp at h2

theorem replGtDec_ne_nil (c : Char) (cs : List Char) : replGtDec (c :: cs) ≠ [] := by
  rw [replGtDec.eq_def]
  split
  · simp
  · next h2 => simp
  · next h2 => simp at h2

theorem replAmpDec_ne_nil (c : Char) (cs : List Char) : replAmpDec (c :: cs) ≠ [] := by
  rw [replAmpDec.eq_def]
  split
  · simp
  · next h2 => simp
  · next h2 => simp at h2

theorem unescapeL_ne_nil (l : List Char) (h : l ≠ []) : unescapeL l ≠ [] := by
  rw [unescapeL]
  obtain ⟨c, cs, rfl⟩ := List.exists_cons_of_ne_nil h
  obtain ⟨c1, cs1, h1⟩ := List.exists_cons_of_ne_nil (replLtDec_ne_nil c cs)
  rw [h1]
  obtain ⟨c2, cs2, h2⟩ := List.exists_cons_of_ne_nil (replGtDec_ne_nil c1 cs1)
  rw [h2]
  exact replAmpDec_ne_nil c2 cs2

/-! ### Scanning and cursor lemmas -/

theorem getElem?_eq_head?_drop (t : List Char) (pos : Nat) : t[pos]? = (t.drop pos).head? :=
  (List.head?_drop t pos).symm

theorem drop_add_of_drop (t l : List Char) (pos k : Nat) (h : t.drop pos = l) :
    t.drop (pos + k) = l.drop k := by
  rw [← h, List.drop_drop]

theorem scanCount_append_of_all (p : Char → Bool) (l r : List Char)
    (h : ∀ c ∈ l, p c = true) : scanCount p (l ++ r) = l.length + scanCount p r := by
  induction l with
  | nil => simp
  | cons c cs ih =>
    rw [List.cons_append, scanCount, if_pos (h c (by simp)),
      ih (fun c hc => h c (List.mem_cons_of_mem _ hc))]
    simp only [List.length_cons]
    omega

theorem scanCount_stop (p : Char → Bool) (r : List Char)
    (h : ∀ c, r.head? = some c → p c = false) : scanCount p r = 0 := by
  cases r with
  | nil => rfl
  | cons c cs => rw [scanCount, if_neg (by rw [h c rfl]; simp)]

theorem scanCount_all_stop (p : Char → Bool) (l r : List Char)
    (h1 : ∀ c ∈ l, p c = true) (h2 : ∀ c, r.head? = some c → p c = false) :
    scanCount p (l ++ r) = l.length := by
  rw [scanCount_append_of_all p l r h1, scanCount_stop p r h2]
  omega

theorem scanCount_le_length (p : Char → Bool) (l : List Char) : scanCount p l ≤ l.length := by
  induction l with
  | nil => simp [scanCount]
  | cons c cs ih =>
    rw [scanCount]
    split
    · simpa using ih
    · simp

theorem skipWs_stop (t : List Char) (pos : Nat)
    (h : ∀ c, (t.drop pos).head? = some c → pyIsSpace c = false) : skipWs t pos = pos := by
  rw [skipWs, scanCount_stop pyIsSpace _ h]
  omega

theorem skipWs_run (t : List Char) (pos : Nat) (w r : List Char) (hd : t.drop pos = w ++ r)
    (h1 : ∀ c ∈ w, pyIsSpace c = true) (h2 : ∀ c, r.head? = some c → pyIsSpace c = false) :
    skipWs t pos = pos + w.length := by
  rw [skipWs, hd, scanCount_all_stop pyIsSpace w r h1 h2]

theorem skipWs_ge (t : List Char) (pos : Nat) : pos ≤ skipWs t pos := by
  rw [skipWs]; omega

theorem skipWs_le_length (t : List Char) (pos : Nat) (h : pos ≤ t.length) :
    skipWs t pos ≤ t.length := by
  rw [skipWs]
  have h1 := scanCount_le_length pyIsSpace (t.drop pos)
  rw [List.length_drop] at h1
  omega

theorem startswith_of_drop (t : List Char) (pos : Nat) (s r : List Char)
    (h : t.drop pos = s ++ r) : startswith t pos s = true := by
  rw [startswith, h, List.take_left]
  simp

theorem startswith_false_first (t : List Char) (pos : Nat) (c : Char) (r : List Char)
    (a : Char) (s : List Char) (hd : t.drop pos = c :: r) (hne : c ≠ a) :
    startswith t pos (a :: s) = false := by
  rw [startswith, hd]
  simp only [List.length_cons, List.take_succ_cons, beq_eq_false_iff_ne, ne_eq,
    List.cons.injEq, not_and]
  intro hc
  exact absurd hc hne

theorem startswith_false_second (t : List Char) (pos : Nat) (c d : Char) (r : List Char)
    (a b : Char) (hd : t.drop pos = c :: d :: r) (hne : d ≠ b) :
    startswith t pos [a, b] = false := by
  rw [startswith, hd]
  simp only [List.length_cons, List.length_nil, List.take_succ_cons, List.take_zero,
    beq_eq_false_iff_ne, ne_eq, List.cons.injEq, not_and]
  intro _ hc
  exact absurd hc hne

theorem startswith_false_short (t : List Char) (pos : Nat) (s : List Char)
    (h : (t.drop pos).length < s.length) : startswith t pos s = false := by
  rw [startswith]
  simp only [beq_eq_false_iff_ne, ne_eq]
  intro hc
  have h2 : ((t.drop pos).take s.length).length = min s.length (t.drop pos).length := by
    simp
  rw [hc] at h2
  omega

/-! ### Success-run lemmas for the leaf parsers -/

theorem parse_tag_name_run (t : List Char) (pos : Nat) (nm r : List Char)
    (hd : t.drop pos = nm ++ r) (hne : nm ≠ [])
    (hall : ∀ c ∈ nm, tagNameChar c = true)
    (hstop : ∀ c, r.head? = some c → tagNameChar c = false) :
    parse_tag_name t pos = .ok (String.mk nm, pos + nm.length) := by
  rw [parse_tag_name]
  simp only [hd, scanCount_all_stop tagNameChar nm r hall hstop]
  rw [if_neg (by simpa using hne), List.take_left]

theorem parse_attr_name_run (t : List Char) (pos : Nat) (nm r : List Char)
    (hd : t.drop pos = nm ++ r) (hne : nm ≠ [])
    (hall : ∀ c ∈ nm, attrNameChar c = true)
    (hstop : ∀ c, r.head? = some c → attrNameChar c = false) :
    parse_attr_name t pos = .ok (String.mk nm, pos + nm.length) := by
  rw [parse_attr_name]
  simp only [hd, scanCount_all_stop attrNameChar nm r hall hstop]
  rw [if_neg (by simpa using hne), List.take_left]

theorem parse_attr_value_run (t : List Char) (pos : Nat) (v r : List Char)
    (hd : t.drop pos = '"' :: (v ++ '"' :: r)) (hv : ∀ c ∈ v, (c == '"') = false) :
    parse_attr_value t pos = .ok (unescapeXMLChars (String.mk v), pos + v.length + 2) := by
  have hlen : (t.drop pos).length = t.length - pos := List.length_drop pos t
  rw [hd] at hlen
  simp only [List.length_cons, List.length_append] at hlen
  have hposlt : pos < t.length := by
    by_contra hge
    have : t.drop pos = [] := List.drop_eq_nil_of_le (by omega)
    rw [this] at hd
    exact absurd hd.symm (by simp)
  have hdq : t[pos]? = some '"' := by
    rw [getElem?_eq_head?_drop, hd]; rfl
  rw [parse_attr_value, if_neg (by omega), if_neg (by rw [hdq]; simp)]
  have hd1 : t.drop (pos + 1) = v ++ '"' :: r := by
    rw [drop_add_of_drop t _ pos 1 hd]; rfl
  simp only [hd1]
  rw [scanCount_all_stop _ v ('"' :: r) (fun c hc => by simpa using hv c hc)
    (fun c hc => by simp at hc; rw [hc]; simp)]
  rw [if_neg (by omega), List.take_left]
  have : pos + 1 + v.length + 1 = pos + v.length + 2 := by omega
  rw [this]

theorem parse_text_run (t : List Char) (pos : Nat) (w r : List Char)
    (hd : t.drop pos = w ++ r) (hw : ∀ c ∈ w, (c == '<') = false)
    (hstop : ∀ c, r.head? = some c → c = '<') :
    parse_text t pos = (.text (unescapeXMLChars (String.mk w)), pos + w.length) := by
  rw [parse_text]
  simp only [hd]
  rw [scanCount_all_stop _ w r (fun c hc => by simpa using hw c hc)
    (fun c hc => by rw [hstop c hc]; simp), List.take_left]

/-! ### Progress and shape facts for the leaf parsers -/

theorem getElem?_some_lt (t : List Char) (pos : Nat) (c : Char) (h : t[pos]? = some c) :
    pos < t.length := by
  by_contra hge
  rw [List.getElem?_eq_none (by omega)] at h
  exact Option.noConfusion h

theorem startswith_true_length (t : List Char) (pos : Nat) (s : List Char)
    (h : startswith t pos s = true) (hs : s ≠ []) : pos + s.length ≤ t.length := by
  rw [startswith, beq_iff_eq] at h
  have hpos : pos ≤ t.length := by
    by_contra hgt
    rw [List.drop_eq_nil_of_le (by omega)] at h
    simp only [List.take_nil] at h
    exact hs h.symm
  have h2 : ((t.drop pos).take s.length).length = min s.length (t.drop pos).length := by simp
  rw [h] at h2
  have h3 : (t.drop pos).length = t.length - pos := by simp
  by_contra hlt
  omega

theorem scanCount_take_all (p : Char → Bool) (l : List Char) :
    ∀ c ∈ l.take (scanCount p l), p c = true := by
  induction l with
  | nil => simp
  | cons c cs ih =>
    rw [scanCount]
    split
    · next hp =>
      intro a ha
      rw [List.take_succ_cons] at ha
      rcases List.mem_cons.mp ha with h | h
      · rw [h]; exact hp
      · exact ih a h
    · simp

theorem parse_tag_name_ok (t : List Char) (pos : Nat) (nm : String) (pos' : Nat)
    (h : parse_tag_name t pos = .ok (nm, pos')) :
    pos < pos' ∧ pos' ≤ t.length ∧ nm.data ≠ [] ∧ (∀ c ∈ nm.data, tagNameChar c = true) := by
  rw [parse_tag_name] at h
  split at h
  · exact Except.noConfusion h
  · next hn =>
    rw [Except.ok.injEq, Prod.mk.injEq] at h
    obtain ⟨h1, h2⟩ := h
    have hle : scanCount tagNameChar (t.drop pos) ≤ (t.drop pos).length :=
      scanCount_le_length _ _
    have hdl : (t.drop pos).length = t.length - pos := by simp
    have hpos : pos ≤ t.length := by
      by_contra hgt
      rw [List.drop_eq_nil_of_le (by omega)] at hn
      exact hn rfl
    refine ⟨by omega, by omega, ?_, ?_⟩
    · rw [← h1]
      simp only [ne_eq, List.take_eq_nil_iff, not_or]
      constructor
      · exact hn
      · intro hdrop
        rw [hdrop] at hn
        exact hn rfl
    · intro c hc
      rw [← h1] at hc
      exact scanCount_take_all tagNameChar (t.drop pos) c hc

theorem parse_attr_name_ok (t : List Char) (pos : Nat) (nm : String) (pos' : Nat)
    (h : parse_attr_name t pos = .ok (nm, pos')) :
    pos < pos' ∧ pos' ≤ t.length ∧ nm.data ≠ [] ∧ (∀ c ∈ nm.data, attrNameChar c = true) := by
  rw [parse_attr_name] at h
  split at h
  · exact Except.noConfusion h
  · next hn =>
    rw [Except.ok.injEq, Prod.mk.injEq] at h
    obtain ⟨h1, h2⟩ := h
    have hle : scanCount attrNameChar (t.drop pos) ≤ (t.drop pos).length :=
      scanCount_le_length _ _
    have hdl : (t.drop pos).length = t.length - pos := by simp
    have hpos : pos ≤ t.length := by
      by_contra hgt
      rw [List.drop_eq_nil_of_le (by omega)] at hn
      exact hn rfl
    refine ⟨by omega, by omega, ?_, ?_⟩
    · rw [← h1]
      simp only [ne_eq, List.take_eq_nil_iff, not_or]
      constructor
      · exact hn
      · intro hdrop
        rw [hdrop] at hn
        exact hn rfl
    · intro c hc
      rw [← h1] at hc
      exact scanCount_take_all attrNameChar (t.drop pos) c hc

theorem parse_attr_value_ok (t : List Char) (pos : Nat) (v : String) (pos' : Nat)
    (h : parse_attr_value t pos = .ok (v, pos')) :
    pos < pos' ∧ pos' ≤ t.length ∧ (∀ c ∈ v.data, ¬c = '"') := by
  rw [parse_attr_value] at h
  split at h
  · exact Except.noConfusion h
  · split at h
    · exact Except.noConfusion h
    · next hq =>
      simp only [] at h
      split at h
      · exact Except.noConfusion h
      · next hcl =>
        rw [Except.ok.injEq, Prod.mk.injEq] at h
        obtain ⟨h1, h2⟩ := h
        refine ⟨by omega, by omega, ?_⟩
        intro c hc
        rw [← h1] at hc
        have hraw : ∀ a ∈ (t.drop (pos + 1)).take
            (scanCount (fun c => !(c == '"')) (t.drop (pos + 1))), (!(a == '"')) = true :=
          scanCount_take_all _ _
        intro hceq
        rcases mem_unescapeL c _ hc with hm | hm | hm | hm
        · have := hraw c hm
          rw [hceq] at this
          simp at this
        · rw [hceq] at hm; simp at hm
        · rw [hceq] at hm; simp at hm
        · rw [hceq] at hm; simp at hm

theorem parse_text_ok (t : List Char) (pos : Nat) :
    pos ≤ (parse_text t pos).2 ∧ ((parse_text t pos).2 ≤ t.length ∨ (parse_text t pos).2 = pos) := by
  rw [parse_text]
  have hle : scanCount (fun c => !(c == '<')) (t.drop pos) ≤ (t.drop pos).length :=
    scanCount_le_length _ _
  have hdl : (t.drop pos).length = t.length - pos := by simp
  by_cases hp : pos ≤ t.length
  · exact ⟨by omega, Or.inl (by simp only []; omega)⟩
  · rw [List.drop_eq_nil_of_le (by omega)]
    exact ⟨by simp [scanCount], Or.inr (by simp [scanCount])⟩

theorem scanCount_head_pos (p : Char → Bool) (c : Char) (r : List Char) (h : p c = true) :
    1 ≤ scanCount p (c :: r) := by
  rw [scanCount, if_pos h]
  omega

theorem getElem?_some_drop (t : List Char) (pos : Nat) (c : Char) (h : t[pos]? = some c) :
    t.drop pos = c :: t.drop (pos + 1) := by
  rw [getElem?_eq_head?_drop] at h
  rcases hd : t.drop pos with _ | ⟨d, r⟩
  · rw [hd] at h
    exact Option.noConfusion h
  · rw [hd] at h
    simp only [List.head?_cons, Option.some.injEq] at h
    rw [← h]
    have : t.drop (pos + 1) = r := by
      rw [drop_add_of_drop t _ pos 1 hd]
      rfl
    rw [this]


theorem parse_attributes_ok : ∀ (fuel : Nat) (t : List Char) (attrs : List (String × String))
    (pos : Nat) (attrs' : List (String × String)) (pos' : Nat),
    parse_attributes fuel t attrs pos = some (.ok (attrs', pos')) →
    pos ≤ pos' ∧ (pos ≤ t.length → pos' ≤ t.length) := by
  intro fuel
  induction fuel with
  | zero =>
    intro t attrs pos attrs' pos' h
    exact Option.noConfusion h
  | succ f ih =>
    intro t attrs pos attrs' pos' h
    rw [parse_attributes] at h
    simp only [] at h
    split at h
    · simp only [Option.some.injEq, Except.ok.injEq, Prod.mk.injEq] at h
      rw [← h.2]
      exact ⟨skipWs_ge t pos, fun hp => skipWs_le_length t pos hp⟩
    · split at h
      · simp at h
      · next nm pos1 hnm =>
        split at h
        · simp at h
        · next heqc =>
          split at h
          · simp at h
          · next v pos4 hval =>
            obtain ⟨ha1, ha2, -, -⟩ := parse_attr_name_ok t (skipWs t pos) nm pos1 hnm
            obtain ⟨hv1, hv2, -⟩ := parse_attr_value_ok t _ v pos4 hval
            obtain ⟨hr1, hr2⟩ := ih t (dictInsert attrs nm v) pos4 attrs' pos' h
            have g1 : pos ≤ skipWs t pos := skipWs_ge t pos
            have g3 : pos1 ≤ skipWs t pos1 := skipWs_ge t pos1
            have g4 : skipWs t pos1 + 1 ≤ skipWs t (skipWs t pos1 + 1) := skipWs_ge t _
            exact ⟨by omega, fun _ => hr2 (by omega)⟩

theorem parse_attributes_some : ∀ (f : Nat) (t : List Char) (attrs : List (String × String))
    (pos : Nat), t.length ≤ f + pos → (parse_attributes (f + 1) t attrs pos).isSome = true := by
  intro f
  induction f with
  | zero =>
    intro t attrs pos hf
    rw [parse_attributes]
    simp only []
    rw [if_pos (Or.inl (le_trans (by omega) (skipWs_ge t pos)))]
    rfl
  | succ f ih =>
    intro t attrs pos hf
    rw [parse_attributes]
    simp only []
    split
    · rfl
    · split
      · rfl
      · next nm pos1 hnm =>
        split
        · rfl
        · split
          · rfl
          · next v pos4 hval =>
            apply ih
            obtain ⟨ha1, -, -, -⟩ := parse_attr_name_ok t (skipWs t pos) nm pos1 hnm
            obtain ⟨hv1, -, -⟩ := parse_attr_value_ok t _ v pos4 hval
            have g1 : pos ≤ skipWs t pos := skipWs_ge t pos
            have g3 : pos1 ≤ skipWs t pos1 := skipWs_ge t pos1
            have g4 : skipWs t pos1 + 1 ≤ skipWs t (skipWs t pos1 + 1) := skipWs_ge t _
            omega

theorem parse_text_progress (t : List Char) (pos : Nat) (hlt : pos < t.length)
    (hne : ¬t[pos]? = some '<') : pos + 1 ≤ (parse_text t pos).2 := by
  have hg : t[pos]? = some (t.get ⟨pos, hlt⟩) := by
    rw [List.getElem?_eq_getElem hlt]
    rfl
  have hd := getElem?_some_drop t pos _ hg
  rw [parse_text]
  have hc : (!(t.get ⟨pos, hlt⟩ == '<')) = true := by
    simp only [Bool.not_eq_eq_eq_not, Bool.not_true, beq_eq_false_iff_ne, ne_eq]
    intro hcc
    rw [hcc] at hg
    exact hne hg
  simp only [hd, scanCount, if_pos hc]
  omega

theorem parse_text_le (t : List Char) (pos : Nat) (hp : pos ≤ t.length) :
    (parse_text t pos).2 ≤ t.length := by
  rcases parse_text_ok t pos with ⟨h1, h2 | h2⟩
  · exact h2
  · omega

theorem parse_progress : ∀ (fuel : Nat),
    (∀ (t : List Char) (pos : Nat) (nd : SSMLNode) (pos' : Nat),
      parse_element fuel t pos = some (.ok (nd, pos')) → pos < pos' ∧ pos' ≤ t.length) ∧
    (∀ (t : List Char) (nm : String) (acc : List SSMLNode) (pos : Nat)
      (cs : List SSMLNode) (pos' : Nat),
      parse_children fuel t nm acc pos = some (.ok (cs, pos')) → pos < pos' ∧ pos' ≤ t.length) := by
  intro fuel
  induction fuel with
  | zero =>
    constructor
    · intro t pos nd pos' h
      exact Option.noConfusion h
    · intro t nm acc pos cs pos' h
      exact Option.noConfusion h
  | succ f ih =>
    constructor
    · intro t pos nd pos' h
      rw [parse_element] at h
      simp only [] at h
      split at h
      · simp at h
      · next hlt =>
        split at h
        · simp at h
        · next tag_name pos1 hnm =>
          split at h
          · exact Option.noConfusion h
          · simp at h
          · next attributes pos3 hattrs =>
            obtain ⟨hn1, hn2, -, -⟩ := parse_tag_name_ok t (skipWs t (pos + 1)) tag_name pos1 hnm
            obtain ⟨ha1, ha2⟩ := parse_attributes_ok (t.length + 1) t [] (skipWs t pos1)
              attributes pos3 hattrs
            have g1 : pos + 1 ≤ skipWs t (pos + 1) := skipWs_ge t (pos + 1)
            have g2 : pos1 ≤ skipWs t pos1 := skipWs_ge t pos1
            have g3 : skipWs t pos1 ≤ t.length := skipWs_le_length t pos1 hn2
            have g4 : pos3 ≤ t.length := ha2 g3
            have g5 : pos3 ≤ skipWs t pos3 := skipWs_ge t pos3
            have g6 : skipWs t pos3 ≤ t.length := skipWs_le_length t pos3 g4
            split at h
            · next hsc =>
              simp only [Option.some.injEq, Except.ok.injEq, Prod.mk.injEq] at h
              have hlen := startswith_true_length t (skipWs t pos3) ['/', '>'] hsc (by simp)
              simp only [List.length_cons, List.length_singleton] at hlen
              rw [← h.2]
              constructor
              · omega
              · omega
            · split at h
              · next hgt =>
                split at h
                · exact Option.noConfusion h
                · simp at h
                · next children pos5 hch =>
                  simp only [Option.some.injEq, Except.ok.injEq, Prod.mk.injEq] at h
                  obtain ⟨hc1, hc2⟩ := ih.2 t tag_name [] (skipWs t pos3 + 1) children pos5 hch
                  rw [← h.2]
                  constructor
                  · omega
                  · omega
              · simp at h
    · intro t nm acc pos cs pos' h
      rw [parse_children] at h
      simp only [] at h
      split at h
      · simp at h
      · next hlen =>
        split at h
        · next hcl =>
          split at h
          · simp at h
          · next closing pos1 hnm2 =>
            split at h
            · simp at h
            · next hgt2 =>
              split at h
              · simp at h
              · simp only [Option.some.injEq, Except.ok.injEq, Prod.mk.injEq] at h
                obtain ⟨hn1, hn2, -, -⟩ :=
                  parse_tag_name_ok t (skipWs t (pos + 2)) closing pos1 hnm2
                have g1 : pos + 2 ≤ skipWs t (pos + 2) := skipWs_ge t (pos + 2)
                have g2 : pos1 ≤ skipWs t pos1 := skipWs_ge t pos1
                push_neg at hgt2
                rw [← h.2]
                constructor
                · omega
                · omega
        · next hncl =>
          split at h
          · next hlt2 =>
            split at h
            · exact Option.noConfusion h
            · simp at h
            · next child pos1 hel =>
              obtain ⟨he1, he2⟩ := ih.1 t pos child pos1 hel
              obtain ⟨hr1, hr2⟩ := ih.2 t nm (acc ++ [child]) pos1 cs pos' h
              constructor
              · omega
              · omega
          · next hnlt =>
            have hplt : pos < t.length := by omega
            have hp1 := parse_text_progress t pos hplt hnlt
            have hp2 := parse_text_le t pos (by omega)
            obtain ⟨hr1, hr2⟩ :=
              ih.2 t nm (acc ++ [(parse_text t pos).1]) (parse_text t pos).2 cs pos' h
            exact ⟨by omega, hr2⟩

theorem parse_some : ∀ (f : Nat),
    (∀ (t : List Char) (pos : Nat), 2 * (t.length - pos) ≤ f →
      (parse_element (f + 1) t pos).isSome = true) ∧
    (∀ (t : List Char) (nm : String) (acc : List SSMLNode) (pos : Nat),
      2 * (t.length - pos) + 1 ≤ f → (parse_children (f + 1) t nm acc pos).isSome = true) := by
  intro f
  induction f with
  | zero =>
    constructor
    · intro t pos hf
      rw [parse_element]
      simp only []
      rw [if_pos]
      · rfl
      · rw [List.getElem?_eq_none (by omega)]
        simp
    · intro t nm acc pos hf
      omega
  | succ f ih =>
    constructor
    · intro t pos hf
      rw [parse_element]
      simp only []
      split
      · rfl
      · next hlt =>
        rw [not_not] at hlt
        have hposlt := getElem?_some_lt t pos '<' hlt
        split
        · rfl
        · next tag_name pos1 hnm =>
          split
          · next hattrs =>
            have hs := parse_attributes_some t.length t [] (skipWs t pos1) (by omega)
            rw [hattrs] at hs
            simp at hs
          · rfl
          · next attributes pos3 hattrs =>
            obtain ⟨hn1, hn2, -, -⟩ := parse_tag_name_ok t (skipWs t (pos + 1)) tag_name pos1 hnm
            obtain ⟨ha1, ha2⟩ := parse_attributes_ok (t.length + 1) t [] (skipWs t pos1)
              attributes pos3 hattrs
            have g1 : pos + 1 ≤ skipWs t (pos + 1) := skipWs_ge t (pos + 1)
            have g2 : pos1 ≤ skipWs t pos1 := skipWs_ge t pos1
            have g3 : skipWs t pos1 ≤ t.length := skipWs_le_length t pos1 hn2
            have g4 : pos3 ≤ t.length := ha2 g3
            have g5 : pos3 ≤ skipWs t pos3 := skipWs_ge t pos3
            have g6 : skipWs t pos3 ≤ t.length := skipWs_le_length t pos3 g4
            split
            · rfl
            · split
              · next hgt =>
                split
                · next hch =>
                  have hs := (ih.2 t tag_name [] (skipWs t pos3 + 1)) (by omega)
                  rw [hch] at hs
                  simp at hs
                · rfl
                · rfl
              · rfl
    · intro t nm acc pos hf
      rw [parse_children]
      simp only []
      split
      · rfl
      · next hlen =>
        split
        · next hcl =>
          split
          · rfl
          · next closing pos1 hnm2 =>
            split
            · rfl
            · split
              · rfl
              · rfl
        · next hncl =>
          split
          · next hlt2 =>
            split
            · next hel =>
              have hs := (ih.1 t pos) (by omega)
              rw [hel] at hs
              simp at hs
            · rfl
            · next child pos1 hel =>
              obtain ⟨he1, he2⟩ := (parse_progress (f + 1)).1 t pos child pos1 hel
              exact (ih.2 t nm (acc ++ [child]) pos1) (by omega)
          · next hnlt =>
            have hplt : pos < t.length := by omega
            have hp1 := parse_text_progress t pos hplt hnlt
            have hp2 := parse_text_le t pos (by omega)
            exact (ih.2 t nm (acc ++ [(parse_text t pos).1]) (parse_text t pos).2) (by omega)

/-- Termination of the parser: with the fuel supplied by `parseSSMLCore`, the
embedded recursion always completes; equivalently `parseSSML` never reaches the
dead-code default. -/
theorem parseSSMLCore_isSome (s : String) : (parseSSMLCore s).isSome = true := by
  rw [parseSSMLCore]
  simp only []
  split
  · rfl
  · next hcond =>
    have h21 : 2 * s.data.length + 1 = 2 * (s.data.length - skipWs s.data 0) + 1 +
        (2 * s.data.length - 2 * (s.data.length - skipWs s.data 0)) := by
      have := skipWs_ge s.data 0
      omega
    split
    · next hel =>
      have hs := (parse_some (2 * s.data.length)).1 s.data (skipWs s.data 0) (by omega)
      rw [hel] at hs
      simp at hs
    · rfl
    · next node pos1 hel =>
      split
      · rfl
      · split
        · split
          · rfl
          · rfl
        · rfl

/-! ### The attribute-dict invariant of `parse_attributes` -/

theorem any_keys_map_replace (rest : List (String × String)) (k v q : String) :
    (rest.map (fun p => if p.1 == k then (k, v) else p)).any (fun p => p.1 == q) =
    rest.any (fun p => p.1 == q) := by
  induction rest with
  | nil => rfl
  | cons a tl ih =>
    rw [List.map_cons, List.any_cons, List.any_cons, ih]
    congr 1
    split
    · next hh =>
      rw [beq_iff_eq] at hh
      rw [← hh]
    · rfl

theorem keysDistinct_map_replace (attrs : List (String × String)) (k v : String)
    (h : keysDistinct attrs = true) :
    keysDistinct (attrs.map (fun p => if p.1 == k then (k, v) else p)) = true := by
  induction attrs with
  | nil => rfl
  | cons a rest ih =>
    obtain ⟨a1, a2⟩ := a
    rw [keysDistinct] at h
    simp only [Bool.and_eq_true, Bool.not_eq_true'] at h
    rw [List.map_cons]
    by_cases hak : ((a1, a2).1 == k) = true
    · rw [if_pos hak]
      rw [keysDistinct]
      simp only [Bool.and_eq_true, Bool.not_eq_true']
      have ha1k : a1 = k := by simpa using hak
      constructor
      · rw [any_keys_map_replace, ← ha1k]
        exact h.1
      · exact ih h.2
    · rw [if_neg hak]
      rw [keysDistinct]
      simp only [Bool.and_eq_true, Bool.not_eq_true']
      constructor
      · rw [any_keys_map_replace]
        exact h.1
      · exact ih h.2

theorem keysDistinct_append_single (attrs : List (String × String)) (k v : String)
    (h : keysDistinct attrs = true) (hany : attrs.any (fun p => p.1 == k) = false) :
    keysDistinct (attrs ++ [(k, v)]) = true := by
  induction attrs with
  | nil => rfl
  | cons a rest ih =>
    obtain ⟨a1, a2⟩ := a
    rw [keysDistinct] at h
    simp only [Bool.and_eq_true, Bool.not_eq_true'] at h
    rw [List.any_cons] at hany
    have hany1 : ((a1, a2).1 == k) = false := by
      rcases hb : ((a1, a2).1 == k) with _ | _
      · rfl
      · rw [hb] at hany
        simp at hany
    have hany2 : rest.any (fun p => p.1 == k) = false := by
      rcases hb : rest.any (fun p => p.1 == k) with _ | _
      · rfl
      · rw [hb] at hany
        simp at hany
    rw [List.cons_append, keysDistinct]
    simp only [Bool.and_eq_true, Bool.not_eq_true']
    constructor
    · rw [List.any_append]
      rw [h.1, List.any_cons, List.any_nil]
      simp only [Bool.false_or, Bool.or_false]
      rw [beq_eq_false_iff_ne] at hany1 ⊢
      exact fun hh => hany1 hh.symm
    · exact ih h.2 hany2

theorem attrsWF_dictInsert (attrs : List (String × String)) (k v : String)
    (h : attrsWF attrs = true) (hk : attrKeyWF k = true)
    (hv : ∀ c ∈ v.data, ¬c = '"') : attrsWF (dictInsert attrs k v) = true := by
  rw [attrsWF, Bool.and_eq_true] at h
  obtain ⟨hdist, hall⟩ := h
  rw [List.all_eq_true] at hall
  have hvb : v.data.all (fun c => !(c == '"')) = true := by
    rw [List.all_eq_true]
    intro c hc
    simpa using hv c hc
  rw [dictInsert]
  split
  · rw [attrsWF, Bool.and_eq_true]
    constructor
    · exact keysDistinct_map_replace attrs k v hdist
    · rw [List.all_eq_true]
      intro p hp
      rw [List.mem_map] at hp
      obtain ⟨q, hq, hpq⟩ := hp
      rw [← hpq]
      split
      · simp only [Bool.and_eq_true]
        exact ⟨hk, hvb⟩
      · exact hall q hq
  · rw [attrsWF, Bool.and_eq_true]
    constructor
    · next hany =>
      exact keysDistinct_append_single attrs k v hdist (Bool.eq_false_iff.mpr hany)
    · rw [List.all_eq_true]
      intro p hp
      rw [List.mem_append] at hp
      rcases hp with hp | hp
      · exact hall p hp
      · simp only [List.mem_singleton] at hp
        rw [hp]
        simp only [Bool.and_eq_true]
        exact ⟨hk, hvb⟩

theorem parse_attributes_wf : ∀ (fuel : Nat) (t : List Char) (attrs : List (String × String))
    (pos : Nat) (attrs' : List (String × String)) (pos' : Nat),
    parse_attributes fuel t attrs pos = some (.ok (attrs', pos')) →
    attrsWF attrs = true → attrsWF attrs' = true := by
  intro fuel
  induction fuel with
  | zero =>
    intro t attrs pos attrs' pos' h
    exact Option.noConfusion h
  | succ f ih =>
    intro t attrs pos attrs' pos' h hwf
    rw [parse_attributes] at h
    simp only [] at h
    split at h
    · simp only [Option.some.injEq, Except.ok.injEq, Prod.mk.injEq] at h
      rw [← h.1]
      exact hwf
    · split at h
      · simp at h
      · next nm pos1 hnm =>
        split at h
        · simp at h
        · next heqc =>
          split at h
          · simp at h
          · next v pos4 hval =>
            obtain ⟨-, -, hne, hallk⟩ := parse_attr_name_ok t (skipWs t pos) nm pos1 hnm
            obtain ⟨-, -, hvq⟩ := parse_attr_value_ok t _ v pos4 hval
            apply ih t (dictInsert attrs nm v) pos4 attrs' pos' h
            apply attrsWF_dictInsert attrs nm v hwf _ hvq
            rw [attrKeyWF, Bool.and_eq_true]
            constructor
            · simpa using hne
            · rw [List.all_eq_true]
              exact hallk

/-! ### Adjacency and children-list invariants -/

theorem listWF_append_single (acc : List SSMLNode) (nd : SSMLNode)
    (h1 : listWF acc = true) (h2 : nodeWF nd = true) : listWF (acc ++ [nd]) = true := by
  induction acc with
  | nil =>
    rw [List.nil_append, listWF, h2, listWF]
    rfl
  | cons a tl ih =>
    rw [listWF, Bool.and_eq_true] at h1
    rw [List.cons_append, listWF, ih h1.2, h1.1]
    rfl

theorem adjOK_append_single (acc : List SSMLNode) (nd : SSMLNode) (h1 : adjOK acc = true)
    (h2 : ∀ x, acc.getLast? = some x → isTextNode x = true → isTextNode nd = false) :
    adjOK (acc ++ [nd]) = true := by
  induction acc with
  | nil => rfl
  | cons a tl ih =>
    cases tl with
    | nil =>
      rw [List.cons_append, List.nil_append, adjOK]
      simp only [Bool.and_eq_true, Bool.not_eq_true']
      constructor
      · rcases ht : isTextNode a with _ | _
        · rw [Bool.false_and]
        · rw [Bool.true_and]
          exact h2 a rfl ht
      · rfl
    | cons b tl2 =>
      rw [adjOK, Bool.and_eq_true] at h1
      have hlast : (b :: tl2).getLast? = (a :: b :: tl2).getLast? := by
        rw [List.getLast?_cons_cons]
      rw [List.cons_append, List.cons_append, adjOK]
      simp only [Bool.and_eq_true]
      constructor
      · exact h1.1
      · exact ih h1.2 (fun x hx => h2 x (by rw [← hlast]; exact hx))

theorem scanCount_lt_stop (p : Char → Bool) (l : List Char) (h : scanCount p l < l.length) :
    ∃ c, l[scanCount p l]? = some c ∧ p c = false := by
  induction l with
  | nil => simp at h
  | cons c cs ih =>
    rw [scanCount]
    by_cases hp : p c = true
    · rw [if_pos hp]
      rw [scanCount, if_pos hp, List.length_cons] at h
      obtain ⟨d, hd1, hd2⟩ := ih (by omega)
      exact ⟨d, by simpa using hd1, hd2⟩
    · rw [if_neg hp]
      exact ⟨c, by simp, Bool.eq_false_iff.mpr hp⟩

theorem parse_text_stop (t : List Char) (pos : Nat) :
    t[(parse_text t pos).2]? = some '<' ∨ t.length ≤ (parse_text t pos).2 := by
  rw [parse_text]
  simp only []
  by_cases hlt : scanCount (fun c => !(c == '<')) (t.drop pos) < (t.drop pos).length
  · obtain ⟨c, hc1, hc2⟩ := scanCount_lt_stop _ _ hlt
    left
    have : (t.drop pos)[scanCount (fun c => !(c == '<')) (t.drop pos)]? =
        t[pos + scanCount (fun c => !(c == '<')) (t.drop pos)]? := by
      rw [List.getElem?_drop]
    rw [this] at hc1
    rw [hc1]
    have : c = '<' := by
      simpa using hc2
    rw [this]
  · right
    have hdl : (t.drop pos).length = t.length - pos := by simp
    omega

theorem isEmpty_false_of_ne_nil {α : Type} (l : List α) (h : l ≠ []) : l.isEmpty = false := by
  cases l with
  | nil => exact absurd rfl h
  | cons a tl => rfl

theorem parse_text_wf (t : List Char) (pos : Nat) (hlt : pos < t.length)
    (hne : ¬t[pos]? = some '<') : nodeWF (parse_text t pos).1 = true := by
  have hg : t[pos]? = some (t.get ⟨pos, hlt⟩) := by
    rw [List.getElem?_eq_getElem hlt]
    rfl
  have hd := getElem?_some_drop t pos _ hg
  have hc : (!(t.get ⟨pos, hlt⟩ == '<')) = true := by
    simp only [Bool.not_eq_eq_eq_not, Bool.not_true, beq_eq_false_iff_ne, ne_eq]
    intro hcc
    rw [hcc] at hg
    exact hne hg
  have hc2 : (t.get ⟨pos, hlt⟩ == '<') = false := by
    simpa using hc
  rw [parse_text]
  simp only [hd, scanCount, nodeWF, Bool.not_eq_true', unescapeXMLChars]
  rw [if_pos hc2, List.take_succ_cons]
  apply isEmpty_false_of_ne_nil
  exact unescapeL_ne_nil _ (List.cons_ne_nil _ _)

theorem parse_wf : ∀ (fuel : Nat),
    (∀ (t : List Char) (pos : Nat) (nd : SSMLNode) (pos' : Nat),
      parse_element fuel t pos = some (.ok (nd, pos')) →
      nodeWF nd = true ∧ isTextNode nd = false) ∧
    (∀ (t : List Char) (nm : String) (acc : List SSMLNode) (pos : Nat)
      (cs : List SSMLNode) (pos' : Nat),
      parse_children fuel t nm acc pos = some (.ok (cs, pos')) →
      listWF acc = true → adjOK acc = true →
      (∀ x, acc.getLast? = some x → isTextNode x = true →
        (t[pos]? = some '<' ∨ t.length ≤ pos)) →
      listWF cs = true ∧ adjOK cs = true) := by
  intro fuel
  induction fuel with
  | zero =>
    constructor
    · intro t pos nd pos' h
      exact Option.noConfusion h
    · intro t nm acc pos cs pos' h
      exact Option.noConfusion h
  | succ f ih =>
    constructor
    · intro t pos nd pos' h
      rw [parse_element] at h
      simp only [] at h
      split at h
      · simp at h
      · next hlt =>
        split at h
        · simp at h
        · next tag_name pos1 hnm =>
          split at h
          · exact Option.noConfusion h
          · simp at h
          · next attributes pos3 hattrs =>
            obtain ⟨-, -, hnne, hnall⟩ := parse_tag_name_ok t (skipWs t (pos + 1)) tag_name pos1 hnm
            have hnwf : nameWF tag_name = true := by
              rw [nameWF, Bool.and_eq_true]
              constructor
              · simpa using hnne
              · rw [List.all_eq_true]
                exact hnall
            have hawf : attrsWF attributes = true :=
              parse_attributes_wf (t.length + 1) t [] (skipWs t pos1) attributes pos3 hattrs rfl
            split at h
            · simp only [Option.some.injEq, Except.ok.injEq, Prod.mk.injEq] at h
              rw [← h.1]
              constructor
              · rw [nodeWF, hnwf, hawf]
                rfl
              · rfl
            · split at h
              · split at h
                · exact Option.noConfusion h
                · simp at h
                · next children pos5 hch =>
                  simp only [Option.some.injEq, Except.ok.injEq, Prod.mk.injEq] at h
                  obtain ⟨hcw, hca⟩ := ih.2 t tag_name [] (skipWs t pos3 + 1) children pos5 hch
                    rfl rfl (fun x hx => Option.noConfusion hx)
                  rw [← h.1]
                  constructor
                  · rw [nodeWF, hnwf, hawf, hcw, hca]
                    rfl
                  · rfl
              · simp at h
    · intro t nm acc pos cs pos' h hwf hadj hlast
      rw [parse_children] at h
      simp only [] at h
      split at h
      · simp at h
      · next hlen =>
        split at h
        · next hcl =>
          split at h
          · simp at h
          · next closing pos1 hnm2 =>
            split at h
            · simp at h
            · split at h
              · simp at h
              · simp only [Option.some.injEq, Except.ok.injEq, Prod.mk.injEq] at h
                rw [← h.1]
                exact ⟨hwf, hadj⟩
        · next hncl =>
          split at h
          · next hlt2 =>
            split at h
            · exact Option.noConfusion h
            · simp at h
            · next child pos1 hel =>
              obtain ⟨hcwf, hcnt⟩ := ih.1 t pos child pos1 hel
              apply ih.2 t nm (acc ++ [child]) pos1 cs pos' h
              · exact listWF_append_single acc child hwf hcwf
              · apply adjOK_append_single acc child hadj
                intro x hx htx
                exact hcnt
              · intro x hx htx
                rw [List.getLast?_concat] at hx
                rw [Option.some.injEq] at hx
                rw [← hx] at htx
                rw [htx] at hcnt
                exact Bool.noConfusion hcnt
          · next hnlt =>
            have hplt : pos < t.length := by omega
            apply ih.2 t nm (acc ++ [(parse_text t pos).1]) (parse_text t pos).2 cs pos' h
            · exact listWF_append_single acc _ hwf (parse_text_wf t pos hplt hnlt)
            · apply adjOK_append_single acc _ hadj
              intro x hx htx
              rcases hlast x hx htx with hc | hc
              · exact absurd hc hnlt
              · omega
            · intro x hx htx
              exact parse_text_stop t pos

mutual

theorem nodeWF_textsOK : (nd : SSMLNode) → nodeWF nd = true → nodeTextsOK nd = true
  | .text _, h => h
  | .tag n a cs, h => by
    rw [nodeWF] at h
    simp only [Bool.and_eq_true] at h
    rw [nodeTextsOK]
    exact listWF_textsOK cs h.2

theorem listWF_textsOK : (cs : List SSMLNode) → listWF cs = true → listTextsOK cs = true
  | [], _ => rfl
  | c :: rest, h => by
    rw [listWF, Bool.and_eq_true] at h
    rw [listTextsOK, nodeWF_textsOK c h.1, listWF_textsOK rest h.2]
    rfl

end

theorem parseSSMLCore_eq_parseSSML (s : String) : parseSSMLCore s = some (parseSSML s) := by
  have h := parseSSMLCore_isSome s
  rcases hr : parseSSMLCore s with _ | r
  · rw [hr] at h
    simp at h
  · rw [parseSSML, hr]
    rfl

theorem parseSSML_ok_shape (s : String) (nd : SSMLNode) (h : parseSSML s = .ok nd) :
    nodeWF nd = true ∧ ∃ a c, nd = .tag "speak" a c := by
  have hc := parseSSMLCore_eq_parseSSML s
  rw [h] at hc
  rw [parseSSMLCore] at hc
  simp only [] at hc
  split at hc
  · simp at hc
  · split at hc
    · simp at hc
    · simp at hc
    · next node pos1 hel =>
      split at hc
      · simp at hc
      · split at hc
        · next nm a c =>
          split at hc
          · next hnm =>
            simp only [Option.some.injEq, Except.ok.injEq] at hc
            obtain ⟨hwf, -⟩ := (parse_wf (2 * s.data.length + 1)).1 s.data _ _ pos1 hel
            constructor
            · rw [← hc]
              exact hwf
            · exact ⟨a, c, by rw [← hc, hnm]⟩
          · simp at hc
        · simp at hc

/-! ### Error-message helper lemmas -/

theorem append_ne_empty_left (a b : String) (h : a.data ≠ []) : a ++ b ≠ "" := by
  intro heq
  have h2 := congrArg String.data heq
  rw [String.data_append] at h2
  rw [List.append_eq_nil] at h2
  exact h h2.1

theorem containsSeq_nil_pat (r : List Char) : containsSeq [] r = true := by
  cases r with
  | nil => rfl
  | cons c rest =>
    rw [containsSeq]
    simp

theorem containsSeq_append_mid (x l r : List Char) : containsSeq x (l ++ (x ++ r)) = true := by
  induction l with
  | nil =>
    rw [List.nil_append]
    cases x with
    | nil => exact containsSeq_nil_pat r
    | cons c xs =>
      rw [List.cons_append, containsSeq, ← List.cons_append, List.take_left]
      simp
  | cons c l' ih =>
    rw [List.cons_append, containsSeq, ih]
    simp

theorem errMsg_ne_empty (e : ParseErr) : errMsg e ≠ "" := by
  cases e with
  | mustStartWithTag => decide
  | extraContent => decide
  | rootMustBeSpeak => decide
  | expectedLt p => exact append_ne_empty_left _ _ (by decide)
  | malformedTag p =>
    rw [errMsg, String.append_assoc]
    exact append_ne_empty_left _ _ (by decide)
  | expectedTagName p => exact append_ne_empty_left _ _ (by decide)
  | expectedEq p => exact append_ne_empty_left _ _ (by decide)
  | expectedAttrName p => exact append_ne_empty_left _ _ (by decide)
  | expectedAttrValue p => exact append_ne_empty_left _ _ (by decide)
  | expectedDoubleQuote p => exact append_ne_empty_left _ _ (by decide)
  | attrValueNotClosed st => exact append_ne_empty_left _ _ (by decide)
  | missingClosingTag n =>
    rw [errMsg, String.append_assoc]
    exact append_ne_empty_left _ _ (by decide)
  | expectedGtClosing p => exact append_ne_empty_left _ _ (by decide)
  | mismatchedClosingTag a b =>
    rw [errMsg, String.append_assoc, String.append_assoc, String.append_assoc]
    exact append_ne_empty_left _ _ (by decide)

theorem errOffset_none_cases (e : ParseErr) (h : errOffset e = none) :
    e = .mustStartWithTag ∨ e = .extraContent ∨ e = .rootMustBeSpeak ∨
    (∃ n, e = .missingClosingTag n) ∨ (∃ a b, e = .mismatchedClosingTag a b) := by
  cases e with
  | mustStartWithTag => exact Or.inl rfl
  | extraContent => exact Or.inr (Or.inl rfl)
  | rootMustBeSpeak => exact Or.inr (Or.inr (Or.inl rfl))
  | missingClosingTag n => exact Or.inr (Or.inr (Or.inr (Or.inl ⟨n, rfl⟩)))
  | mismatchedClosingTag a b => exact Or.inr (Or.inr (Or.inr (Or.inr ⟨a, b, rfl⟩)))
  | expectedLt p => rw [errOffset] at h; exact Option.noConfusion h
  | malformedTag p => rw [errOffset] at h; exact Option.noConfusion h
  | expectedTagName p => rw [errOffset] at h; exact Option.noConfusion h
  | expectedEq p => rw [errOffset] at h; exact Option.noConfusion h
  | expectedAttrName p => rw [errOffset] at h; exact Option.noConfusion h
  | expectedAttrValue p => rw [errOffset] at h; exact Option.noConfusion h
  | expectedDoubleQuote p => rw [errOffset] at h; exact Option.noConfusion h
  | attrValueNotClosed st => rw [errOffset] at h; exact Option.noConfusion h
  | expectedGtClosing p => rw [errOffset] at h; exact Option.noConfusion h

theorem mismatch_msg_contains (a b : String) :
    containsSeq a.data (errMsg (.mismatchedClosingTag a b)).data = true ∧
    containsSeq b.data (errMsg (.mismatchedClosingTag a b)).data = true := by
  rw [errMsg]
  constructor
  · have hsh : ("Mismatched closing tag: expected </" ++ a ++ "> but found </" ++ b ++ ">").data =
        "Mismatched closing tag: expected </".data ++
          (a.data ++ ("> but found </".data ++ b.data ++ ">".data)) := by
      simp only [String.data_append, List.append_assoc]
    rw [hsh]
    exact containsSeq_append_mid a.data _ _
  · have hsh : ("Mismatched closing tag: expected </" ++ a ++ "> but found </" ++ b ++ ">").data =
        ("Mismatched closing tag: expected </".data ++ a.data ++ "> but found </".data) ++
          (b.data ++ ">".data) := by
      simp only [String.data_append, List.append_assoc]
    rw [hsh]
    exact containsSeq_append_mid b.data _ _

/-! ### Claim theorems -/

/-- C2, counterexample: with the source replacement orders (escape replaces
`&` last), the codec round trip already fails on the one-character string
`<`, which contains no pre-existing entity sequence: it escapes to
`&amp;lt;` and unescapes back to `&lt;`, not `<`. -/
theorem C2_counterexample :
    escapeXMLChars "<" = "&amp;lt;" ∧
    unescapeXMLChars (escapeXMLChars "<") = "&lt;" ∧
    unescapeXMLChars (escapeXMLChars "<") ≠ "<" := by decide

/-- C2, amended: `unescapeXMLChars (escapeXMLChars s) = s` holds exactly when
the angle brackets are absent: for every string `s` containing no literal `<`
and no literal `>` (ampersands, with or without pre-existing entity
sequences, are fine), the round trip is the identity. -/
theorem C2_roundtrip_amended : ∀ s : String, '<' ∉ s.data → '>' ∉ s.data →
    unescapeXMLChars (escapeXMLChars s) = s := by
  intro s h1 h2
  rw [escapeXMLChars, unescapeXMLChars]
  have hdd : (String.mk (escapeL s.data)).data = escapeL s.data := rfl
  rw [hdd, unescapeL_escapeL s.data h1 h2]

theorem C2_roundtrip_witness :
    '<' ∉ "a&b".data ∧ '>' ∉ "a&b".data ∧ unescapeXMLChars (escapeXMLChars "a&b") = "a&b" :=
  ⟨by decide, by decide, C2_roundtrip_amended "a&b" (by decide) (by decide)⟩

/-- C3: `parseSSML` succeeds only with a root `Tag` named exactly `speak`;
a different root name (for example `<foo></foo>`) is rejected with the
root-must-be-speak error, trailing non-whitespace content is rejected with
the extra-content error, and leading/trailing whitespace around the root
element is accepted. -/
theorem C3_root_validation :
    (∀ (s : String) (nd : SSMLNode), parseSSML s = .ok nd → ∃ a c, nd = .tag "speak" a c) ∧
    parseSSML "<foo></foo>" = .error .rootMustBeSpeak ∧
    parseSSML "<speak></speak>!" = .error .extraContent ∧
    parseSSML "  <speak> x </speak>  " = .ok (.tag "speak" [] [.text " x "]) :=
  ⟨fun s nd h => (parseSSML_ok_shape s nd h).2, by decide, by decide, by decide⟩

theorem C3_witness : ∃ a c, (SSMLNode.tag "speak" [] [] : SSMLNode) = .tag "speak" a c :=
  C3_root_validation.1 "<speak></speak>" (.tag "speak" [] []) (by decide)

/-- C4, counterexample: the error raised for the empty input carries no
byte/character offset at all; its message is the bare
`SSML must start with an opening tag`.  The same holds for the
extra-content, root-name, missing-closing-tag and mismatched-closing-tag
sites, so the claim that every error carries the offset of the violation is
false on the code. -/
theorem C4_counterexample :
    parseSSML "" = .error .mustStartWithTag ∧
    errOffset .mustStartWithTag = none ∧
    errMsg .mustStartWithTag = "SSML must start with an opening tag" := by decide

/-- C4, amended: every error raised by `parseSSML` is of the single kind
`ParseError` (`ValueError` in the source, the one `ParseErr` type here) and
carries a nonempty human-readable message; the errors whose message omits the
offset are exactly the five sites input-must-start-with-tag, extra-content,
root-must-be-speak, missing-closing-tag and mismatched-closing-tag, and the
mismatched-closing-tag message names both the expected and the found tag. -/
theorem C4_amended : ∀ (s : String) (e : ParseErr), parseSSML s = .error e →
    errMsg e ≠ "" ∧
    (errOffset e = none → e = .mustStartWithTag ∨ e = .extraContent ∨ e = .rootMustBeSpeak ∨
      (∃ n, e = .missingClosingTag n) ∨ (∃ a b, e = .mismatchedClosingTag a b)) ∧
    (∀ a b, e = .mismatchedClosingTag a b →
      containsSeq a.data (errMsg e).data = true ∧ containsSeq b.data (errMsg e).data = true) :=
  fun _ e _ =>
    ⟨errMsg_ne_empty e, errOffset_none_cases e,
      fun a b hab => by rw [hab]; exact mismatch_msg_contains a b⟩

theorem C4_witness :
    errMsg .mustStartWithTag ≠ "" ∧
    (errOffset ParseErr.mustStartWithTag = none →
      ParseErr.mustStartWithTag = .mustStartWithTag ∨
      ParseErr.mustStartWithTag = .extraContent ∨
      ParseErr.mustStartWithTag = .rootMustBeSpeak ∨
      (∃ n, ParseErr.mustStartWithTag = .missingClosingTag n) ∨
      (∃ a b, ParseErr.mustStartWithTag = .mismatchedClosingTag a b)) ∧
    (∀ a b, ParseErr.mustStartWithTag = .mismatchedClosingTag a b →
      containsSeq a.data (errMsg ParseErr.mustStartWithTag).data = true ∧
      containsSeq b.data (errMsg ParseErr.mustStartWithTag).data = true) :=
  C4_amended "" .mustStartWithTag (by decide)

/-- C5, counterexample: between the adjacent tags `</a>` and `<b>` the parser
emits no child at all, not an empty-string text node: the parsed children are
exactly the two tags. -/
theorem C5_counterexample :
    parseSSML "<speak><a></a><b></b></speak>" =
      .ok (.tag "speak" [] [.tag "a" [] [], .tag "b" [] []]) := by decide

/-- C5, amended: an empty text run between adjacent tags yields no child:
`parse_children` only calls `parse_text` when the current character is not
`<`, so every text node anywhere in a parsed tree has nonempty content. -/
theorem C5_no_empty_text : ∀ (s : String) (nd : SSMLNode),
    parseSSML s = .ok nd → nodeTextsOK nd = true :=
  fun s nd h => nodeWF_textsOK nd (parseSSML_ok_shape s nd h).1

theorem C5_witness :
    parseSSML "<speak>hi</speak>" = .ok (.tag "speak" [] [.text "hi"]) ∧
    nodeTextsOK (.tag "speak" [] [.text "hi"]) = true :=
  ⟨by decide, C5_no_empty_text "<speak>hi</speak>" (.tag "speak" [] [.text "hi"]) (by decide)⟩

/-- C9: the parser terminates on every finite input.  The embedded recursion,
run with the fuel `2 * length + 1` supplied by `parseSSMLCore`, never runs
out (first conjunct), because every successful step of the grammar strictly
advances the cursor (second conjunct, for any fuel). -/
theorem C9_termination :
    (∀ s : String, (parseSSMLCore s).isSome = true) ∧
    (∀ (fuel : Nat) (t : List Char) (pos : Nat) (nd : SSMLNode) (pos' : Nat),
      parse_element fuel t pos = some (.ok (nd, pos')) → pos < pos') :=
  ⟨parseSSMLCore_isSome,
    fun fuel t pos nd pos' h => ((parse_progress fuel).1 t pos nd pos' h).1⟩

theorem C9_witness :
    (parseSSMLCore "<speak></speak>").isSome = true ∧
    parse_element 31 "<speak></speak>".data 0 = some (.ok (.tag "speak" [] [], 15)) ∧
    0 < 15 :=
  ⟨C9_termination.1 "<speak></speak>", by decide,
    C9_termination.2 31 "<speak></speak>".data 0 (.tag "speak" [] []) 15 (by decide)⟩

/-! ### Helpers for running the parser over serializer output -/

theorem tagNameChar_not_ws (c : Char) (h : tagNameChar c = true) : pyIsSpace c = false := by
  rw [tagNameChar] at h
  simp only [Bool.and_eq_true, Bool.not_eq_true'] at h
  exact h.1.1

theorem tagNameChar_facts (c : Char) (h : tagNameChar c = true) :
    pyIsSpace c = false ∧ c ≠ '/' ∧ c ≠ '>' := by
  rw [tagNameChar] at h
  simp only [Bool.and_eq_true, Bool.not_eq_true', beq_eq_false_iff_ne, ne_eq] at h
  exact ⟨h.1.1, h.1.2, h.2⟩

theorem attrNameChar_facts (c : Char) (h : attrNameChar c = true) :
    pyIsSpace c = false ∧ c ≠ '=' ∧ c ≠ '/' ∧ c ≠ '>' := by
  rw [attrNameChar] at h
  simp only [Bool.and_eq_true, Bool.not_eq_true', beq_eq_false_iff_ne, ne_eq] at h
  exact ⟨h.1.1.1, h.1.1.2, h.1.2, h.2⟩

theorem scanCount_drop_scanCount (p : Char → Bool) (l : List Char) :
    scanCount p (l.drop (scanCount p l)) = 0 := by
  by_cases hlt : scanCount p l < l.length
  · obtain ⟨c, hc1, hc2⟩ := scanCount_lt_stop p l hlt
    apply scanCount_stop
    intro d hd
    rw [← List.head?_drop] at hc1
    rw [hd] at hc1
    rw [Option.some.injEq] at hc1
    rw [hc1]
    exact hc2
  · rw [List.drop_eq_nil_of_le (by omega)]
    rfl

theorem skipWs_idem (t : List Char) (pos : Nat) : skipWs t (skipWs t pos) = skipWs t pos := by
  simp only [skipWs]
  have h1 : t.drop (pos + scanCount pyIsSpace (t.drop pos)) =
      (t.drop pos).drop (scanCount pyIsSpace (t.drop pos)) :=
    drop_add_of_drop t _ pos _ rfl
  rw [h1, scanCount_drop_scanCount]
  omega

theorem parse_attributes_skipWs (f : Nat) (t : List Char) (acc : List (String × String))
    (pos : Nat) :
    parse_attributes (f + 1) t acc (skipWs t pos) = parse_attributes (f + 1) t acc pos := by
  rw [parse_attributes, parse_attributes, skipWs_idem]

theorem foldDict_cons (acc : List (String × String)) (k v : String)
    (attrs : List (String × String)) :
    foldDict acc ((k, v) :: attrs) = foldDict (dictInsert acc k v) attrs := rfl

theorem dictInsert_not_mem (acc : List (String × String)) (k v : String)
    (h : acc.any (fun p => p.1 == k) = false) : dictInsert acc k v = acc ++ [(k, v)] := by
  rw [dictInsert, if_neg]
  rw [h]
  simp

theorem foldDict_eq_append : ∀ (attrs acc : List (String × String)),
    keysDistinct attrs = true →
    (∀ kv ∈ attrs, acc.any (fun p => p.1 == kv.1) = false) →
    foldDict acc attrs = acc ++ attrs := by
  intro attrs
  induction attrs with
  | nil =>
    intro acc _ _
    rw [foldDict, List.foldl_nil, List.append_nil]
  | cons a rest ih =>
    intro acc hdist hdisj
    obtain ⟨k, v⟩ := a
    rw [keysDistinct] at hdist
    simp only [Bool.and_eq_true, Bool.not_eq_true'] at hdist
    rw [foldDict_cons, dictInsert_not_mem acc k v (hdisj (k, v) (by simp))]
    rw [ih (acc ++ [(k, v)]) hdist.2]
    · rw [List.append_assoc]
      rfl
    · intro kv hkv
      rw [List.any_append]
      simp only [Bool.or_eq_false_iff]
      constructor
      · exact hdisj kv (List.mem_cons_of_mem _ hkv)
      · simp only [List.any_cons, List.any_nil, Bool.or_false]
        have hkkv : (kv.1 == k) = false := by
          rcases hb : (kv.1 == k) with _ | _
          · rfl
          · have : rest.any (fun p => p.1 == k) = true := by
              rw [List.any_eq_true]
              exact ⟨kv, hkv, hb⟩
            rw [this] at hdist
            exact absurd hdist.1 (by simp)
        rw [beq_eq_false_iff_ne] at hkkv
        rw [beq_eq_false_iff_ne]
        exact fun hh => hkkv hh.symm

theorem unescape_escape_str (v : String) (h1 : '<' ∉ v.data) (h2 : '>' ∉ v.data) :
    unescapeXMLChars (String.mk (escapeL v.data)) = v := by
  rw [unescapeXMLChars]
  have hdd : (String.mk (escapeL v.data)).data = escapeL v.data := rfl
  rw [hdd, unescapeL_escapeL v.data h1 h2]

theorem escapeL_no_quote (v : List Char) (hq : '"' ∉ v) (h1 : '<' ∉ v) (h2 : '>' ∉ v) :
    '"' ∉ escapeL v := by
  rw [escapeL_eq_ampEnc v h1 h2]
  exact not_mem_replAmpEnc '"' v hq (by decide)

theorem run_attrs : ∀ (attrs : List (String × String)) (f : Nat) (t : List Char)
    (acc : List (String × String)) (pos : Nat) (rest : List Char),
    attrs.length < f →
    t.drop pos = serAttrs attrs ++ '>' :: rest →
    (∀ kv ∈ attrs, attrKeyWF kv.1 = true ∧ '"' ∉ kv.2.data ∧ '<' ∉ kv.2.data ∧ '>' ∉ kv.2.data) →
    parse_attributes f t acc pos =
      some (.ok (foldDict acc attrs, pos + (serAttrs attrs).length)) := by
  intro attrs
  induction attrs with
  | nil =>
    intro f t acc pos rest hf hd hkv
    rcases f with _ | g
    · omega
    · rw [serAttrs, List.nil_append] at hd
      have hget : t[pos]? = some '>' := by
        rw [getElem?_eq_head?_drop, hd]
        rfl
      rw [parse_attributes]
      simp only []
      rw [skipWs_stop t pos (by rw [hd]; intro c hc; rw [List.head?_cons, Option.some.injEq] at hc; rw [← hc]; decide)]
      rw [if_pos (Or.inr (Or.inr hget))]
      rw [foldDict, List.foldl_nil, serAttrs]
      simp
  | cons a attrs' ih =>
    intro f t acc pos rest hf hd hkv
    obtain ⟨k, v⟩ := a
    rcases f with _ | g
    · omega
    · obtain ⟨hkWF, hvq, hvlt, hvgt⟩ := hkv (k, v) (by simp)
      rw [attrKeyWF, Bool.and_eq_true] at hkWF
      have hkne : k.data ≠ [] := by simpa using hkWF.1
      have hkall : ∀ c ∈ k.data, attrNameChar c = true := by
        have := hkWF.2
        rw [List.all_eq_true] at this
        exact this
      obtain ⟨kc, ktl, hkd⟩ := List.exists_cons_of_ne_nil hkne
      have hkcfacts := attrNameChar_facts kc (hkall kc (by rw [hkd]; simp))
      have hd0 : t.drop pos = ' ' :: (k.data ++ '=' :: '"' ::
          (escapeL v.data ++ '"' :: (serAttrs attrs' ++ '>' :: rest))) := by
        rw [hd]
        simp [serAttrs, List.append_assoc]
      have hd1 : t.drop (pos + 1) = k.data ++ '=' :: '"' ::
          (escapeL v.data ++ '"' :: (serAttrs attrs' ++ '>' :: rest)) := by
        have h2 := drop_add_of_drop t _ pos 1 hd0
        simpa using h2
      have hd2 : t.drop (pos + 1 + k.data.length) = '=' :: '"' ::
          (escapeL v.data ++ '"' :: (serAttrs attrs' ++ '>' :: rest)) := by
        have h2 := drop_add_of_drop t _ (pos + 1) k.data.length hd1
        rw [List.drop_left] at h2
        exact h2
      have hd3 : t.drop (pos + 1 + k.data.length + 1) = '"' ::
          (escapeL v.data ++ '"' :: (serAttrs attrs' ++ '>' :: rest)) := by
        have h2 := drop_add_of_drop t _ (pos + 1 + k.data.length) 1 hd2
        simpa using h2
      have hlen1 : (t.drop (pos + 1)).length = t.length - (pos + 1) := by simp
      have hlenpos : pos + 1 < t.length := by
        rw [hd1, hkd] at hlen1
        simp only [List.length_append, List.length_cons] at hlen1
        omega
      have hstop1 : ∀ c, (k.data ++ '=' :: '"' :: (escapeL v.data ++ '"' ::
          (serAttrs attrs' ++ '>' :: rest))).head? = some c → pyIsSpace c = false := by
        rw [hkd]
        intro c hc
        simp only [List.cons_append, List.head?_cons, Option.some.injEq] at hc
        rw [← hc]
        exact hkcfacts.1
      have hskip : skipWs t pos = pos + 1 := by
        have h2 := skipWs_run t pos [' '] _ hd0
          (by
            intro c hc
            have hc2 : c = ' ' := List.mem_singleton.mp hc
            rw [hc2]
            decide)
          hstop1
        simpa using h2
      have hgetk : t[pos + 1]? = some kc := by
        rw [getElem?_eq_head?_drop, hd1, hkd]
        rfl
      have hcond : ¬(t.length ≤ pos + 1 ∨ t[pos + 1]? = some '/' ∨ t[pos + 1]? = some '>') := by
        rw [hgetk]
        simp only [not_or, Option.some.injEq]
        refine ⟨by omega, fun hc => hkcfacts.2.2.1 hc, fun hc => hkcfacts.2.2.2 hc⟩
      have hname : parse_attr_name t (pos + 1) = .ok (k, pos + 1 + k.data.length) := by
        have h2 := parse_attr_name_run t (pos + 1) k.data _ hd1 hkne hkall
          (by intro c hc; simp only [List.head?_cons, Option.some.injEq] at hc; rw [← hc]; decide)
        exact h2
      have hskip2 : skipWs t (pos + 1 + k.data.length) = pos + 1 + k.data.length :=
        skipWs_stop t _ (by
          rw [hd2]
          intro c hc
          simp only [List.head?_cons, Option.some.injEq] at hc
          rw [← hc]
          decide)
      have hgeteq : t[pos + 1 + k.data.length]? = some '=' := by
        rw [getElem?_eq_head?_drop, hd2]
        rfl
      have hlen2 : pos + 1 + k.data.length < t.length := by
        have h2 : (t.drop (pos + 1 + k.data.length)).length = t.length -
            (pos + 1 + k.data.length) := by simp
        rw [hd2] at h2
        simp only [List.length_cons] at h2
        omega
      have hcond2 : ¬(t.length ≤ pos + 1 + k.data.length ∨
          t[pos + 1 + k.data.length]? ≠ some '=') := by
        rw [hgeteq]
        simp only [not_or, ne_eq, not_not]
        exact ⟨by omega, trivial⟩
      have hskip3 : skipWs t (pos + 1 + k.data.length + 1) = pos + 1 + k.data.length + 1 :=
        skipWs_stop t _ (by
          rw [hd3]
          intro c hc
          simp only [List.head?_cons, Option.some.injEq] at hc
          rw [← hc]
          decide)
      have hvalue : parse_attr_value t (pos + 1 + k.data.length + 1) =
          .ok (v, pos + 1 + k.data.length + 1 + (escapeL v.data).length + 2) := by
        have h2 := parse_attr_value_run t (pos + 1 + k.data.length + 1) (escapeL v.data) _ hd3
          (by intro c hc
              rw [beq_eq_false_iff_ne]
              intro hcc
              rw [hcc] at hc
              exact escapeL_no_quote v.data hvq hvlt hvgt hc)
        rw [unescape_escape_str v hvlt hvgt] at h2
        exact h2
      have htrans : parse_attributes (g + 1) t acc pos = parse_attributes g t
          (dictInsert acc k v) (pos + 1 + k.data.length + 1 + (escapeL v.data).length + 2) := by
        rw [parse_attributes]
        simp only []
        rw [hskip, if_neg hcond, hname]
        simp only []
        rw [hskip2, if_neg hcond2, hskip3, hvalue]
      have hdQ : t.drop (pos + 1 + k.data.length + 1 + (escapeL v.data).length + 2) =
          serAttrs attrs' ++ '>' :: rest := by
        have h2 := drop_add_of_drop t _ (pos + 1 + k.data.length + 1)
          ((escapeL v.data).length + 2) hd3
        have h3 : ('"' :: (escapeL v.data ++ '"' :: (serAttrs attrs' ++ '>' :: rest))).drop
            ((escapeL v.data).length + 2) = serAttrs attrs' ++ '>' :: rest := by
          rw [List.drop_succ_cons]
          have h4 : (escapeL v.data).length + 1 = (escapeL v.data).length + 1 := rfl
          rw [show (escapeL v.data ++ '"' :: (serAttrs attrs' ++ '>' :: rest)) =
            (escapeL v.data ++ ['"']) ++ (serAttrs attrs' ++ '>' :: rest) by simp]
          rw [show (escapeL v.data).length + 1 = (escapeL v.data ++ ['"']).length by simp]
          exact List.drop_left _ _
        rw [h3] at h2
        have h5 : pos + 1 + k.data.length + 1 + ((escapeL v.data).length + 2) =
            pos + 1 + k.data.length + 1 + (escapeL v.data).length + 2 := by omega
        rw [h5] at h2
        exact h2
      have hflen : attrs'.length < g := by
        simp only [List.length_cons] at hf
        omega
      rw [htrans, ih g t (dictInsert acc k v) _ rest hflen hdQ
        (fun kv hkv2 => hkv kv (List.mem_cons_of_mem _ hkv2))]
      rw [← foldDict_cons]
      have hlen : pos + 1 + k.data.length + 1 + (escapeL v.data).length + 2 +
          (serAttrs attrs').length = pos + (serAttrs ((k, v) :: attrs')).length := by
        simp only [serAttrs, List.length_append, List.length_cons, List.length_nil]
        omega
      rw [hlen]

theorem serAttrs_head_stop (a : List (String × String)) (X : List Char) :
    ∀ c, (serAttrs a ++ '>' :: X).head? = some c → tagNameChar c = false := by
  cases a with
  | nil =>
    intro c hc
    rw [serAttrs, List.nil_append, List.head?_cons, Option.some.injEq] at hc
    rw [← hc]
    decide
  | cons kv a' =>
    obtain ⟨k, v⟩ := kv
    intro c hc
    rw [serAttrs] at hc
    simp only [List.singleton_append, List.cons_append, List.head?_cons,
      Option.some.injEq] at hc
    rw [← hc]
    decide

theorem serAttrs_length_ge (a : List (String × String)) : a.length ≤ (serAttrs a).length := by
  induction a with
  | nil => simp [serAttrs]
  | cons kv a' ih =>
    obtain ⟨k, v⟩ := kv
    rw [serAttrs]
    simp only [List.length_append, List.length_cons, List.length_singleton]
    omega

theorem serList_cons_head (cs : List SSMLNode) (X : List Char)
    (hnt : ∀ s2, cs.head? ≠ some (.text s2)) :
    ∀ c, (serList cs ++ '<' :: X).head? = some c → c = '<' := by
  cases cs with
  | nil =>
    intro c hc
    rw [serList, List.nil_append, List.head?_cons, Option.some.injEq] at hc
    exact hc.symm
  | cons c2 cs2 =>
    cases c2 with
    | text s2 => exact absurd rfl (hnt s2)
    | tag n2 a2 k2 =>
      intro c hc
      rw [serList, serNode] at hc
      simp only [List.singleton_append, List.cons_append, List.append_assoc,
        List.head?_cons, Option.some.injEq] at hc
      exact hc.symm

theorem adjOK_tail (a : SSMLNode) (l : List SSMLNode) (h : adjOK (a :: l) = true) :
    adjOK l = true := by
  cases l with
  | nil => rfl
  | cons b l2 =>
    rw [adjOK, Bool.and_eq_true] at h
    exact h.2

theorem run_parse : ∀ (N : Nat),
    (∀ (n : String) (a : List (String × String)) (cs : List SSMLNode),
      sizeOf (SSMLNode.tag n a cs) ≤ N →
      nodeWF (.tag n a cs) = true →
      nodeNoAngle (.tag n a cs) = true →
      ∀ (t : List Char) (pos : Nat) (rest : List Char) (f : Nat),
        t.drop pos = serNode (.tag n a cs) ++ rest →
        2 * (t.length - pos) < f →
        parse_element f t pos =
          some (.ok (.tag n a cs, pos + (serNode (.tag n a cs)).length))) ∧
    (∀ (cs : List SSMLNode), sizeOf cs ≤ N →
      listWF cs = true → adjOK cs = true → listNoAngle cs = true →
      ∀ (nm : String) (t : List Char) (acc : List SSMLNode) (pos : Nat) (rest : List Char)
        (f : Nat),
        nameWF nm = true →
        t.drop pos = serList cs ++ '<' :: '/' :: (nm.data ++ '>' :: rest) →
        2 * (t.length - pos) + 1 < f →
        parse_children f t nm acc pos =
          some (.ok (acc ++ cs, pos + (serList cs).length + nm.data.length + 3))) := by
  intro N
  induction N with
  | zero =>
    constructor
    · intro n a cs hsz
      have h1 : sizeOf (SSMLNode.tag n a cs) = 1 + sizeOf n + sizeOf a + sizeOf cs := by simp
      omega
    · intro cs hsz
      have h1 : 1 ≤ sizeOf cs := by
        cases cs
        · simp
        · simp
          omega
      omega
  | succ N ih =>
    constructor
    -- parse_element runs exactly over the serialization of a well-formed tag
    · intro n a cs hsz hwf hna t pos rest f hd hfuel
      rw [nodeWF] at hwf
      simp only [Bool.and_eq_true] at hwf
      obtain ⟨⟨⟨hnwf, hawf⟩, hadj⟩, hlwf⟩ := hwf
      rw [nodeNoAngle] at hna
      simp only [Bool.and_eq_true] at hna
      obtain ⟨hvna, hlna⟩ := hna
      have hawf2 := hawf
      rw [attrsWF, Bool.and_eq_true] at hawf2
      obtain ⟨hdist, hallkv⟩ := hawf2
      rw [List.all_eq_true] at hallkv
      rw [List.all_eq_true] at hvna
      have hkv : ∀ kv ∈ a, attrKeyWF kv.1 = true ∧ '"' ∉ kv.2.data ∧
          '<' ∉ kv.2.data ∧ '>' ∉ kv.2.data := by
        intro kv hm
        have h1 := hallkv kv hm
        have h2 := hvna kv hm
        simp only [Bool.and_eq_true] at h1
        rw [List.all_eq_true] at h2
        refine ⟨h1.1, ?_, ?_, ?_⟩
        · intro hmem
          have h3 := h1.2
          rw [List.all_eq_true] at h3
          have h4 := h3 '"' hmem
          simp at h4
        · intro hmem
          have h4 := h2 '<' hmem
          simp at h4
        · intro hmem
          have h4 := h2 '>' hmem
          simp at h4
      have hnwf2 := hnwf
      rw [nameWF, Bool.and_eq_true] at hnwf2
      have hn_ne : n.data ≠ [] := by simpa using hnwf2.1
      have hn_all : ∀ c ∈ n.data, tagNameChar c = true := by
        have := hnwf2.2
        rw [List.all_eq_true] at this
        exact this
      obtain ⟨nc, ntl, hnd⟩ := List.exists_cons_of_ne_nil hn_ne
      have hd0 : t.drop pos = '<' :: (n.data ++ (serAttrs a ++ '>' ::
          (serList cs ++ '<' :: '/' :: (n.data ++ '>' :: rest)))) := by
        rw [hd]
        simp [serNode, List.append_assoc]
      have hd1 : t.drop (pos + 1) = n.data ++ (serAttrs a ++ '>' ::
          (serList cs ++ '<' :: '/' :: (n.data ++ '>' :: rest))) := by
        have h2 := drop_add_of_drop t _ pos 1 hd0
        simpa using h2
      have hd2 : t.drop (pos + 1 + n.data.length) = serAttrs a ++ '>' ::
          (serList cs ++ '<' :: '/' :: (n.data ++ '>' :: rest)) := by
        have h2 := drop_add_of_drop t _ (pos + 1) n.data.length hd1
        rw [List.drop_left] at h2
        exact h2
      have hd3 : t.drop (pos + 1 + n.data.length + (serAttrs a).length) = '>' ::
          (serList cs ++ '<' :: '/' :: (n.data ++ '>' :: rest)) := by
        have h2 := drop_add_of_drop t _ (pos + 1 + n.data.length) (serAttrs a).length hd2
        rw [List.drop_left] at h2
        exact h2
      have hd4 : t.drop (pos + 1 + n.data.length + (serAttrs a).length + 1) =
          serList cs ++ '<' :: '/' :: (n.data ++ '>' :: rest) := by
        have h2 := drop_add_of_drop t _ (pos + 1 + n.data.length + (serAttrs a).length) 1 hd3
        simpa using h2
      have hlen0 : t.length - pos = 1 + (n.data.length + ((serAttrs a).length + (1 +
          ((serList cs).length + (1 + (1 + (n.data.length + (1 + rest.length)))))))) := by
        have h2 := congrArg List.length hd0
        rw [List.length_drop] at h2
        simp only [List.length_append, List.length_cons] at h2
        omega
      have hposlt : pos < t.length := by omega
      rcases f with _ | g
      · omega
      · have hget0 : t[pos]? = some '<' := by
          rw [getElem?_eq_head?_drop, hd0]
          rfl
        have hskipA : skipWs t (pos + 1) = pos + 1 := by
          apply skipWs_stop
          rw [hd1, hnd]
          intro c hc
          simp only [List.cons_append, List.head?_cons, Option.some.injEq] at hc
          rw [← hc]
          exact tagNameChar_not_ws nc (hn_all nc (by rw [hnd]; simp))
        have hname : parse_tag_name t (pos + 1) = .ok (n, pos + 1 + n.data.length) := by
          have h2 := parse_tag_name_run t (pos + 1) n.data _ hd1 hn_ne hn_all
            (serAttrs_head_stop a _)
          exact h2
        have hfattr : a.length < t.length + 1 := by
          have h2 := serAttrs_length_ge a
          omega
        have hattrs : parse_attributes (t.length + 1) t [] (pos + 1 + n.data.length) =
            some (.ok (a, pos + 1 + n.data.length + (serAttrs a).length)) := by
          have h2 := run_attrs a (t.length + 1) t [] (pos + 1 + n.data.length) _ hfattr hd2 hkv
          rw [foldDict_eq_append a [] hdist (fun kv _ => rfl)] at h2
          simpa using h2
        have hskip4 : skipWs t (pos + 1 + n.data.length + (serAttrs a).length) =
            pos + 1 + n.data.length + (serAttrs a).length := by
          apply skipWs_stop
          rw [hd3]
          intro c hc
          simp only [List.head?_cons, Option.some.injEq] at hc
          rw [← hc]
          decide
        have hsw : startswith t (pos + 1 + n.data.length + (serAttrs a).length)
            ['/', '>'] = false :=
          startswith_false_first t _ '>' _ '/' ['>'] hd3 (by decide)
        have hget3 : t[pos + 1 + n.data.length + (serAttrs a).length]? = some '>' := by
          rw [getElem?_eq_head?_drop, hd3]
          rfl
        have hszcs : sizeOf cs ≤ N := by
          have h1 : sizeOf (SSMLNode.tag n a cs) = 1 + sizeOf n + sizeOf a + sizeOf cs := by
            simp
          omega
        have hchildren := ih.2 cs hszcs hlwf hadj hlna n t []
          (pos + 1 + n.data.length + (serAttrs a).length + 1) rest g hnwf hd4 (by omega)
        rw [parse_element]
        simp only []
        rw [if_neg (fun hcc => hcc hget0), hskipA, hname]
        simp only []
        rw [parse_attributes_skipWs, hattrs]
        simp only []
        rw [hskip4]
        rw [if_neg (by rw [hsw]; simp)]
        rw [if_pos hget3, hchildren]
        simp only [List.nil_append]
        have hfinal : pos + 1 + n.data.length + (serAttrs a).length + 1 +
            (serList cs).length + n.data.length + 3 =
            pos + (serNode (.tag n a cs)).length := by
          simp only [serNode, List.length_append, List.length_cons, List.length_nil]
          omega
        rw [hfinal]
    -- parse_children runs exactly over the serialization of a well-formed children list
    · intro cs hsz hlwf hadj hlna nm t acc pos rest f hnmwf hd hfuel
      have hnmwf2 := hnmwf
      rw [nameWF, Bool.and_eq_true] at hnmwf2
      have hnm_ne : nm.data ≠ [] := by simpa using hnmwf2.1
      have hnm_all : ∀ c ∈ nm.data, tagNameChar c = true := by
        have := hnmwf2.2
        rw [List.all_eq_true] at this
        exact this
      obtain ⟨mc, mtl, hmd⟩ := List.exists_cons_of_ne_nil hnm_ne
      cases cs with
      | nil =>
        rw [serList, List.nil_append] at hd
        have hlen0 : t.length - pos = 1 + (1 + (nm.data.length + (1 + rest.length))) := by
          have h2 := congrArg List.length hd
          rw [List.length_drop] at h2
          simp only [List.length_append, List.length_cons] at h2
          omega
        have hposlt : pos < t.length := by omega
        rcases f with _ | g
        · omega
        · have hd2 : t.drop (pos + 2) = nm.data ++ '>' :: rest := by
            have h2 := drop_add_of_drop t _ pos 2 hd
            simpa using h2
          have hsw : startswith t pos ['<', '/'] = true := by
            apply startswith_of_drop t pos ['<', '/'] (nm.data ++ '>' :: rest)
            rw [hd]
            rfl
          have hskipA : skipWs t (pos + 2) = pos + 2 := by
            apply skipWs_stop
            rw [hd2, hmd]
            intro c hc
            simp only [List.cons_append, List.head?_cons, Option.some.injEq] at hc
            rw [← hc]
            exact tagNameChar_not_ws mc (hnm_all mc (by rw [hmd]; simp))
          have hname : parse_tag_name t (pos + 2) = .ok (nm, pos + 2 + nm.data.length) := by
            have h2 := parse_tag_name_run t (pos + 2) nm.data _ hd2 hnm_ne hnm_all
              (by
                intro c hc
                rw [List.head?_cons, Option.some.injEq] at hc
                rw [← hc]
                decide)
            exact h2
          have hd3 : t.drop (pos + 2 + nm.data.length) = '>' :: rest := by
            have h2 := drop_add_of_drop t _ (pos + 2) nm.data.length hd2
            rw [List.drop_left] at h2
            exact h2
          have hskipB : skipWs t (pos + 2 + nm.data.length) = pos + 2 + nm.data.length := by
            apply skipWs_stop
            rw [hd3]
            intro c hc
            simp only [List.head?_cons, Option.some.injEq] at hc
            rw [← hc]
            decide
          have hget3 : t[pos + 2 + nm.data.length]? = some '>' := by
            rw [getElem?_eq_head?_drop, hd3]
            rfl
          rw [parse_children]
          simp only []
          rw [if_neg (by omega : ¬t.length ≤ pos), if_pos hsw, hskipA, hname]
          simp only []
          rw [hskipB]
          rw [if_neg (by
            rw [hget3]
            simp only [not_or, ne_eq, not_not]
            exact ⟨by omega, trivial⟩)]
          rw [if_neg (by simp : ¬nm ≠ nm)]
          rw [serList]
          simp only [List.length_nil, List.append_nil]
          have hfinal : pos + 2 + nm.data.length + 1 = pos + 0 + nm.data.length + 3 := by
            omega
          rw [hfinal]
      | cons c cs' =>
        have hszc : sizeOf c ≤ N ∧ sizeOf cs' ≤ N := by
          have h1 : sizeOf (c :: cs') = 1 + sizeOf c + sizeOf cs' := by simp
          omega
        rw [listWF, Bool.and_eq_true] at hlwf
        obtain ⟨hcwf, hlwf'⟩ := hlwf
        rw [listNoAngle, Bool.and_eq_true] at hlna
        obtain ⟨hcna, hlna'⟩ := hlna
        have hadj' : adjOK cs' = true := adjOK_tail c cs' hadj
        have hdser : t.drop pos = serNode c ++ (serList cs' ++ '<' :: '/' ::
            (nm.data ++ '>' :: rest)) := by
          rw [hd, serList, List.append_assoc]
        cases c with
        | text s =>
          have hs_ne : s.data ≠ [] := by
            rw [nodeWF] at hcwf
            simpa using hcwf
          have hsna : '<' ∉ s.data ∧ '>' ∉ s.data := by
            rw [nodeNoAngle] at hcna
            rw [List.all_eq_true] at hcna
            constructor
            · intro hmem
              have h4 := hcna '<' hmem
              simp at h4
            · intro hmem
              have h4 := hcna '>' hmem
              simp at h4
          have hesc : serNode (.text s) = replAmpEnc s.data := by
            rw [serNode]
            exact escapeL_eq_ampEnc s.data hsna.1 hsna.2
          obtain ⟨sc, stl, hsd⟩ := List.exists_cons_of_ne_nil hs_ne
          have hescne : serNode (.text s) ≠ [] := by
            rw [hesc, hsd]
            exact replAmpEnc_ne_nil sc stl
          obtain ⟨ec, etl, hed⟩ := List.exists_cons_of_ne_nil hescne
          have hecnlt : ec ≠ '<' := by
            intro hcc
            have hin : '<' ∈ serNode (.text s) := by
              rw [hed, ← hcc]
              simp
            rw [hesc] at hin
            exact not_mem_replAmpEnc '<' s.data hsna.1 (by decide) hin
          have hlen0 : t.length - pos = (serNode (.text s)).length +
              ((serList cs').length + (1 + (1 + (nm.data.length + (1 + rest.length))))) := by
            have h2 := congrArg List.length hdser
            rw [List.length_drop] at h2
            simp only [List.length_append, List.length_cons] at h2
            omega
          have hescpos : 1 ≤ (serNode (.text s)).length := by
            rw [hed]
            simp
          have hposlt : pos < t.length := by omega
          rcases f with _ | g
          · omega
          · have hget0 : t[pos]? = some ec := by
              rw [getElem?_eq_head?_drop, hdser, hed]
              rfl
            have hsw : startswith t pos ['<', '/'] = false := by
              apply startswith_false_first t pos ec _ '<' ['/']
              · rw [hdser, hed]
                rfl
              · exact hecnlt
            have htext : parse_text t pos =
                (.text s, pos + (serNode (.text s)).length) := by
              have hstop2 : ∀ c2, (serList cs' ++ '<' :: '/' ::
                  (nm.data ++ '>' :: rest)).head? = some c2 → c2 = '<' := by
                apply serList_cons_head
                intro s2 hcc
                cases cs' with
                | nil => exact Option.noConfusion hcc
                | cons c2 cs2 =>
                  rw [List.head?_cons, Option.some.injEq] at hcc
                  rw [hcc] at hadj
                  rw [adjOK] at hadj
                  simp [isTextNode] at hadj
              have h2 := parse_text_run t pos (serNode (.text s)) _ hdser
                (by
                  intro c2 hmem
                  rw [beq_eq_false_iff_ne]
                  intro hcc
                  rw [hcc] at hmem
                  rw [hesc] at hmem
                  exact not_mem_replAmpEnc '<' s.data hsna.1 (by decide) hmem)
                hstop2
              rw [serNode] at h2
              rw [unescape_escape_str s hsna.1 hsna.2] at h2
              rw [serNode]
              exact h2
            have hrec := ih.2 cs' hszc.2 hlwf' hadj' hlna' nm t (acc ++ [.text s])
              (pos + (serNode (.text s)).length) rest g hnmwf
              (by
                have h2 := drop_add_of_drop t _ pos (serNode (.text s)).length hdser
                rw [List.drop_left] at h2
                exact h2)
              (by omega)
            rw [parse_children]
            simp only []
            rw [if_neg (by omega : ¬t.length ≤ pos), if_neg (by rw [hsw]; simp),
              if_neg (by rw [hget0]; simp only [Option.some.injEq]; exact fun hcc => hecnlt hcc),
              htext]
            simp only []
            rw [hrec]
            have hl1 : (acc ++ [SSMLNode.text s]) ++ cs' = acc ++ (SSMLNode.text s :: cs') := by
              rw [List.append_assoc]
              rfl
            rw [hl1]
            have hfinal : pos + (serNode (.text s)).length + (serList cs').length +
                nm.data.length + 3 =
                pos + (serList (SSMLNode.text s :: cs')).length + nm.data.length + 3 := by
              rw [serList]
              simp only [List.length_append]
              omega
            rw [hfinal]
        | tag n2 a2 k2 =>
          have hn2wf : nameWF n2 = true := by
            have hcwf2 := hcwf
            rw [nodeWF] at hcwf2
            simp only [Bool.and_eq_true] at hcwf2
            exact hcwf2.1.1.1
          have hn2ne : n2.data ≠ [] := by
            rw [nameWF, Bool.and_eq_true] at hn2wf
            simpa using hn2wf.1
          obtain ⟨n2c, n2tl, hn2d⟩ := List.exists_cons_of_ne_nil hn2ne
          have hn2cfacts : pyIsSpace n2c = false ∧ n2c ≠ '/' ∧ n2c ≠ '>' := by
            apply tagNameChar_facts
            rw [nameWF, Bool.and_eq_true] at hn2wf
            have := hn2wf.2
            rw [List.all_eq_true] at this
            exact this n2c (by rw [hn2d]; simp)
          have hd0 : t.drop pos = '<' :: (n2.data ++ (serAttrs a2 ++ '>' ::
              (serList k2 ++ '<' :: '/' :: (n2.data ++ '>' ::
                (serList cs' ++ '<' :: '/' :: (nm.data ++ '>' :: rest)))))) := by
            rw [hdser]
            simp [serNode, List.append_assoc]
          have hlen0 : t.length - pos = (serNode (.tag n2 a2 k2)).length +
              ((serList cs').length + (1 + (1 + (nm.data.length + (1 + rest.length))))) := by
            have h2 := congrArg List.length hdser
            rw [List.length_drop] at h2
            simp only [List.length_append, List.length_cons] at h2
            omega
          have hserpos : 1 ≤ (serNode (.tag n2 a2 k2)).length := by
            rw [serNode]
            simp
          have hposlt : pos < t.length := by omega
          rcases f with _ | g
          · omega
          · have hget0 : t[pos]? = some '<' := by
              rw [getElem?_eq_head?_drop, hd0]
              rfl
            have hsw : startswith t pos ['<', '/'] = false := by
              apply startswith_false_second t pos '<' n2c _ '<' '/'
              · rw [hd0, hn2d]
                rfl
              · exact hn2cfacts.2.1
            have helem := (ih.1 n2 a2 k2 hszc.1 hcwf hcna t pos
              (serList cs' ++ '<' :: '/' :: (nm.data ++ '>' :: rest)) g hdser (by omega))
            have hrec := ih.2 cs' hszc.2 hlwf' hadj' hlna' nm t (acc ++ [.tag n2 a2 k2])
              (pos + (serNode (.tag n2 a2 k2)).length) rest g hnmwf
              (by
                have h2 := drop_add_of_drop t _ pos (serNode (.tag n2 a2 k2)).length hdser
                rw [List.drop_left] at h2
                exact h2)
              (by omega)
            rw [parse_children]
            simp only []
            rw [if_neg (by omega : ¬t.length ≤ pos), if_neg (by rw [hsw]; simp),
              if_pos hget0, helem]
            simp only []
            rw [hrec]
            have hl1 : (acc ++ [SSMLNode.tag n2 a2 k2]) ++ cs' =
                acc ++ (SSMLNode.tag n2 a2 k2 :: cs') := by
              rw [List.append_assoc]
              rfl
            rw [hl1]
            have hfinal : pos + (serNode (.tag n2 a2 k2)).length + (serList cs').length +
                nm.data.length + 3 =
                pos + (serList (SSMLNode.tag n2 a2 k2 :: cs')).length + nm.data.length + 3 := by
              rw [serList]
              simp only [List.length_append]
              omega
            rw [hfinal]

/-! ### Top-level runs of `parseSSML` -/

theorem skipWs_zero_of_lt (s : String) (hhead : s.data[0]? = some '<') :
    skipWs s.data 0 = 0 := by
  apply skipWs_stop
  intro c hc
  rw [getElem?_eq_head?_drop, List.drop_zero] at hhead
  rw [List.drop_zero, hhead, Option.some.injEq] at hc
  rw [← hc]
  decide

theorem skipWs_at_length (t : List Char) : skipWs t t.length = t.length := by
  rw [skipWs, List.drop_length]
  rfl

theorem core_of_element (s : String) (a : List (String × String)) (c : List SSMLNode)
    (hhead : s.data[0]? = some '<')
    (hel : parse_element (2 * s.data.length + 1) s.data 0 =
      some (.ok (.tag "speak" a c, s.data.length))) :
    parseSSML s = .ok (.tag "speak" a c) := by
  have hcore : parseSSMLCore s = some (.ok (.tag "speak" a c)) := by
    rw [parseSSMLCore]
    simp only []
    rw [skipWs_zero_of_lt s hhead]
    rw [if_neg (by
      rw [hhead]
      simp only [not_or, ne_eq, not_not]
      exact ⟨by have := getElem?_some_lt s.data 0 '<' hhead; omega, trivial⟩)]
    rw [hel]
    simp only []
    rw [skipWs_at_length]
    rw [if_neg (fun hcc => hcc rfl)]
    simp
  rw [parseSSML, hcore]
  rfl

theorem core_of_element_err (s : String) (e : ParseErr)
    (hhead : s.data[0]? = some '<')
    (hel : parse_element (2 * s.data.length + 1) s.data 0 = some (.error e)) :
    parseSSML s = .error e := by
  have hcore : parseSSMLCore s = some (.error e) := by
    rw [parseSSMLCore]
    simp only []
    rw [skipWs_zero_of_lt s hhead]
    rw [if_neg (by
      rw [hhead]
      simp only [not_or, ne_eq, not_not]
      exact ⟨by have := getElem?_some_lt s.data 0 '<' hhead; omega, trivial⟩)]
    rw [hel]
  rw [parseSSML, hcore]
  rfl

theorem serNode_tag_head (n : String) (a : List (String × String)) (cs : List SSMLNode) :
    (serNode (.tag n a cs)).head? = some '<' := by
  rw [serNode]
  rfl

/-- Parsing the exact serialization of a well-formed speak tree returns that
tree. -/
theorem parse_serialized (nd : SSMLNode) (hwf : nodeWF nd = true)
    (hna : nodeNoAngle nd = true) (a : List (String × String)) (c : List SSMLNode)
    (hshape : nd = .tag "speak" a c) (s : String) (hdata : s.data = serNode nd) :
    parseSSML s = .ok nd := by
  subst hshape
  have hdrop0 : s.data.drop 0 = serNode (.tag "speak" a c) ++ [] := by
    rw [List.drop_zero, List.append_nil, hdata]
  have hhead : s.data[0]? = some '<' := by
    rw [getElem?_eq_head?_drop, List.drop_zero, hdata]
    exact serNode_tag_head "speak" a c
  have hlen : s.data.length = (serNode (.tag "speak" a c)).length := by rw [hdata]
  have hrun := (run_parse (sizeOf (SSMLNode.tag "speak" a c))).1 "speak" a c le_rfl hwf hna
    s.data 0 [] (2 * s.data.length + 1) hdrop0
    (by
      have := getElem?_some_lt s.data 0 '<' hhead
      omega)
  rw [show (0 : Nat) + (serNode (SSMLNode.tag "speak" a c)).length = s.data.length by
    rw [hlen]; omega] at hrun
  exact core_of_element s a c hhead hrun

/-- C1, counterexample: the input `<speak>&lt;</speak>` is accepted and yields
the text `<`, but serializing and reparsing yields the text `&lt;` instead,
because `escapeXMLChars` double-escapes the ampersand it introduces. -/
theorem C1_counterexample :
    parseSSML "<speak>&lt;</speak>" = .ok (.tag "speak" [] [.text "<"]) ∧
    ssmlNodeToText (.tag "speak" [] [.text "<"]) = "<speak>&amp;lt;</speak>" ∧
    parseSSML (ssmlNodeToText (.tag "speak" [] [.text "<"])) ≠
      .ok (.tag "speak" [] [.text "<"]) := by decide

/-- C1, amended: the serialize-reparse round trip holds for every accepted
input whose parse tree contains no `<` or `>` character in text content or
attribute values (the region where the escape chain is injective): for such
trees `parseSSML (ssmlNodeToText nd) = .ok nd`. -/
theorem C1_roundtrip_amended : ∀ (s : String) (nd : SSMLNode),
    parseSSML s = .ok nd → nodeNoAngle nd = true →
    parseSSML (ssmlNodeToText nd) = .ok nd := by
  intro s nd hok hna
  obtain ⟨hwf, a, c, hshape⟩ := parseSSML_ok_shape s nd hok
  exact parse_serialized nd hwf hna a c hshape (ssmlNodeToText nd) rfl

theorem C1_roundtrip_witness :
    parseSSML "<speak>Hello</speak>" = .ok (.tag "speak" [] [.text "Hello"]) ∧
    nodeNoAngle (.tag "speak" [] [.text "Hello"]) = true ∧
    parseSSML (ssmlNodeToText (.tag "speak" [] [.text "Hello"])) =
      .ok (.tag "speak" [] [.text "Hello"]) :=
  ⟨by decide, by decide,
    C1_roundtrip_amended "<speak>Hello</speak>" (.tag "speak" [] [.text "Hello"])
      (by decide) (by decide)⟩

theorem replAmpEnc_eq_self (l : List Char) (h : '&' ∉ l) : replAmpEnc l = l := by
  induction l with
  | nil => rfl
  | cons c cs ih =>
    simp only [List.mem_cons, not_or] at h
    rw [replAmpEnc, if_neg (fun hc => h.1 hc.symm), ih h.2]

theorem escapeL_eq_self (l : List Char) (h1 : '<' ∉ l) (h2 : '>' ∉ l) (h3 : '&' ∉ l) :
    escapeL l = l := by
  rw [escapeL, replLtEnc_eq_self l h1, replGtEnc_eq_self l h2, replAmpEnc_eq_self l h3]

theorem pyIsSpace_not_special (c : Char) (h : pyIsSpace c = true) :
    c ≠ '<' ∧ c ≠ '>' ∧ c ≠ '&' := by
  refine ⟨?_, ?_, ?_⟩ <;> intro hcc <;> rw [hcc] at h <;> exact absurd h (by decide)

theorem string_ne_empty_data (w : String) (h : w ≠ "") : w.data ≠ [] := by
  intro hh
  apply h
  cases w with
  | mk l =>
    simp only [] at hh
    rw [hh]

/-- C6: internal whitespace in text content is preserved exactly: any nonempty
all-whitespace run between the `speak` tags parses to a single text child
holding exactly that run; in particular a single space is kept as a
one-space text node. -/
theorem C6_whitespace_preserved :
    (∀ w : String, w ≠ "" → (∀ c ∈ w.data, pyIsSpace c = true) →
      parseSSML ("<speak>" ++ w ++ "</speak>") = .ok (.tag "speak" [] [.text w])) ∧
    parseSSML "<speak> </speak>" = .ok (.tag "speak" [] [.text " "]) := by
  constructor
  · intro w hne hws
    have hwd : w.data ≠ [] := string_ne_empty_data w hne
    have hlt : '<' ∉ w.data := fun hm => (pyIsSpace_not_special _ (hws _ hm)).1 rfl
    have hgt : '>' ∉ w.data := fun hm => (pyIsSpace_not_special _ (hws _ hm)).2.1 rfl
    have hamp : '&' ∉ w.data := fun hm => (pyIsSpace_not_special _ (hws _ hm)).2.2 rfl
    have hesc : escapeL w.data = w.data := escapeL_eq_self w.data hlt hgt hamp
    have hWF : nodeWF (.tag "speak" [] [.text w]) = true := by
      rw [nodeWF]
      simp only [Bool.and_eq_true]
      refine ⟨⟨⟨by decide, by decide⟩, rfl⟩, ?_⟩
      rw [listWF, nodeWF]
      simp only [Bool.and_eq_true]
      refine ⟨?_, rfl⟩
      simpa using hwd
    have hNA : nodeNoAngle (.tag "speak" [] [.text w]) = true := by
      rw [nodeNoAngle]
      simp only [Bool.and_eq_true]
      refine ⟨by decide, ?_⟩
      rw [listNoAngle, nodeNoAngle]
      simp only [Bool.and_eq_true]
      refine ⟨?_, rfl⟩
      rw [List.all_eq_true]
      intro c hm
      simp only [Bool.and_eq_true, Bool.not_eq_true', beq_eq_false_iff_ne, ne_eq]
      exact ⟨(pyIsSpace_not_special _ (hws _ hm)).1, (pyIsSpace_not_special _ (hws _ hm)).2.1⟩
    have hData : ("<speak>" ++ w ++ "</speak>").data =
        serNode (.tag "speak" [] [.text w]) := by
      have c1 : "<speak>".data = ['<', 's', 'p', 'e', 'a', 'k', '>'] := rfl
      have c2 : "</speak>".data = ['<', '/', 's', 'p', 'e', 'a', 'k', '>'] := rfl
      have c3 : "speak".data = ['s', 'p', 'e', 'a', 'k'] := rfl
      have h1 : ("<speak>" ++ w ++ "</speak>").data =
          "<speak>".data ++ w.data ++ "</speak>".data := by
        rw [String.data_append, String.data_append]
      rw [h1, c1, c2]
      rw [serNode, serAttrs, serList, serNode, serList, hesc, c3]
      simp
    exact parse_serialized (.tag "speak" [] [.text w]) hWF hNA [] [.text w] rfl
      ("<speak>" ++ w ++ "</speak>") hData
  · decide

theorem C6_witness :
    (" " : String) ≠ "" ∧ (∀ c ∈ (" " : String).data, pyIsSpace c = true) ∧
    parseSSML ("<speak>" ++ " " ++ "</speak>") = .ok (.tag "speak" [] [.text " "]) :=
  ⟨by decide, by decide,
    C6_whitespace_preserved.1 " " (by decide) (by decide)⟩

/-! ### The serializer never emits the two-character sequence `/>` -/

theorem containsSeq_two_notmem (x y : Char) : ∀ (l : List Char), y ∉ l →
    containsSeq [x, y] l = false
  | [], _ => rfl
  | c :: rest, h => by
    rw [containsSeq, Bool.or_eq_false_iff]
    refine ⟨?_, containsSeq_two_notmem x y rest (fun hm => h (List.mem_cons_of_mem _ hm))⟩
    cases rest with
    | nil =>
      rw [show ([c] : List Char).take ([x, y] : List Char).length = [c] from rfl,
        beq_eq_false_iff_ne]
      intro hcc
      have h2 := congrArg List.length hcc
      simp at h2
    | cons d rest2 =>
      rw [show (c :: d :: rest2).take ([x, y] : List Char).length = [c, d] from rfl,
        beq_eq_false_iff_ne]
      intro hcc
      rw [List.cons.injEq, List.cons.injEq] at hcc
      exact h (by rw [← hcc.2.1]; simp)

theorem containsSeq_two_append (x y : Char) : ∀ (l r : List Char),
    containsSeq [x, y] l = false → containsSeq [x, y] r = false →
    ¬(l.getLast? = some x ∧ r.head? = some y) →
    containsSeq [x, y] (l ++ r) = false
  | [], r, _, hr, _ => by rw [List.nil_append]; exact hr
  | [c], r, _, hr, hcross => by
    rw [List.cons_append, List.nil_append, containsSeq, Bool.or_eq_false_iff]
    refine ⟨?_, hr⟩
    cases r with
    | nil =>
      rw [show ([c] : List Char).take ([x, y] : List Char).length = [c] from rfl,
        beq_eq_false_iff_ne]
      intro hcc
      have h2 := congrArg List.length hcc
      simp at h2
    | cons d r2 =>
      rw [show (c :: d :: r2).take ([x, y] : List Char).length = [c, d] from rfl,
        beq_eq_false_iff_ne]
      intro hcc
      rw [List.cons.injEq, List.cons.injEq] at hcc
      refine hcross ⟨?_, ?_⟩
      · rw [show ([c] : List Char).getLast? = some c from rfl, hcc.1]
      · rw [List.head?_cons, hcc.2.1]
  | c :: e :: l2, r, hl, hr, hcross => by
    rw [containsSeq, Bool.or_eq_false_iff] at hl
    rw [List.cons_append, List.cons_append, containsSeq, Bool.or_eq_false_iff]
    constructor
    · rw [show (c :: e :: (l2 ++ r)).take ([x, y] : List Char).length = [c, e] from rfl]
      rw [show (c :: e :: l2).take ([x, y] : List Char).length = [c, e] from rfl] at hl
      exact hl.1
    · rw [← List.cons_append]
      exact containsSeq_two_append x y (e :: l2) r hl.2 hr (fun hc =>
        hcross ⟨by rw [List.getLast?_cons_cons]; exact hc.1, hc.2⟩)

theorem not_gt_mem_replGtEnc : ∀ (l : List Char), '>' ∉ replGtEnc l
  | [] => by simp [replGtEnc]
  | c :: cs => by
    rw [replGtEnc]
    split
    · next hc =>
      simp only [List.mem_cons, not_or]
      exact ⟨by decide, by decide, by decide, by decide, not_gt_mem_replGtEnc cs⟩
    · next hc =>
      simp only [List.mem_cons, not_or]
      exact ⟨fun h => hc h.symm, not_gt_mem_replGtEnc cs⟩

theorem not_gt_mem_escapeL (l : List Char) : '>' ∉ escapeL l := by
  rw [escapeL]
  intro h
  rcases mem_replAmpEnc '>' _ h with h1 | h1
  · exact not_gt_mem_replGtEnc _ h1
  · simp at h1

theorem not_gt_mem_serAttrs : ∀ (a : List (String × String)),
    (∀ kv ∈ a, attrKeyWF kv.1 = true) → '>' ∉ serAttrs a
  | [], _ => by simp [serAttrs]
  | (k, v) :: rest, h => by
    rw [serAttrs]
    intro hm
    rcases List.mem_append.mp hm with hm1 | h1
    · rcases List.mem_append.mp hm1 with hm2 | h1
      · rcases List.mem_append.mp hm2 with hm3 | h1
        · rcases List.mem_append.mp hm3 with hm4 | h1
          · rcases List.mem_append.mp hm4 with hm5 | h1
            · rcases List.mem_append.mp hm5 with h1 | h1
              · rw [List.mem_singleton] at h1
                exact absurd h1 (by decide)
              · have hk := h (k, v) (by simp)
                rw [attrKeyWF, Bool.and_eq_true] at hk
                have h3 := hk.2
                rw [List.all_eq_true] at h3
                exact absurd (h3 '>' h1) (by decide)
            · rw [List.mem_singleton] at h1
              exact absurd h1 (by decide)
          · rw [List.mem_singleton] at h1
            exact absurd h1 (by decide)
        · exact not_gt_mem_escapeL _ h1
      · rw [List.mem_singleton] at h1
        exact absurd h1 (by decide)
    · exact not_gt_mem_serAttrs rest (fun kv hkv => h kv (List.mem_cons_of_mem _ hkv)) h1

theorem serAttrs_getLast : ∀ (a : List (String × String)),
    serAttrs a = [] ∨ (serAttrs a).getLast? = some '"'
  | [] => Or.inl rfl
  | (k, v) :: rest => by
    right
    rw [serAttrs]
    rcases serAttrs_getLast rest with h | h
    · rw [h, List.append_nil, List.getLast?_concat]
    · have hne : serAttrs rest ≠ [] := by
        intro hh
        rw [hh] at h
        simp at h
      rw [List.getLast?_append_of_ne_nil _ hne, h]

theorem serList_head_not_gt : ∀ (cs : List SSMLNode) (c : Char),
    (serList cs).head? = some c → c ≠ '>'
  | [], c => by
    rw [serList]
    intro hc
    exact absurd hc (by simp)
  | .text s :: cs2, c => by
    rw [serList, serNode]
    intro hc
    cases hes : escapeL s.data with
    | nil =>
      rw [hes, List.nil_append] at hc
      exact serList_head_not_gt cs2 c hc
    | cons e es =>
      rw [hes, List.cons_append, List.head?_cons, Option.some.injEq] at hc
      intro hcc
      apply not_gt_mem_escapeL s.data
      rw [hes, hc, hcc]
      simp
  | .tag n2 a2 k2 :: cs2, c => by
    rw [serList, serNode]
    intro hc
    simp only [List.cons_append, List.append_assoc, List.head?_cons, Option.some.injEq] at hc
    rw [← hc]
    decide

mutual

theorem serNode_noSlashGt : (nd : SSMLNode) → nodeWF nd = true →
    containsSeq ['/', '>'] (serNode nd) = false
  | .text s, _ => by
    rw [serNode]
    exact containsSeq_two_notmem '/' '>' _ (not_gt_mem_escapeL s.data)
  | .tag n a cs, h => by
    rw [nodeWF] at h
    simp only [Bool.and_eq_true] at h
    obtain ⟨⟨⟨hnwf, hawf⟩, hadj⟩, hlwf⟩ := h
    rw [nameWF, Bool.and_eq_true] at hnwf
    have hn_ne : n.data ≠ [] := by simpa using hnwf.1
    have hn_all : ∀ c ∈ n.data, tagNameChar c = true := by
      have := hnwf.2
      rw [List.all_eq_true] at this
      exact this
    have hn_gt : '>' ∉ n.data := fun hm => (tagNameChar_facts _ (hn_all _ hm)).2.2 rfl
    have hn_slash : '/' ∉ n.data := fun hm => (tagNameChar_facts _ (hn_all _ hm)).2.1 rfl
    obtain ⟨nc, ntl, hnd⟩ := List.exists_cons_of_ne_nil hn_ne
    rw [attrsWF, Bool.and_eq_true] at hawf
    have hkeys : ∀ kv ∈ a, attrKeyWF kv.1 = true := by
      have h3 := hawf.2
      rw [List.all_eq_true] at h3
      intro kv hm
      have h4 := h3 kv hm
      simp only [Bool.and_eq_true] at h4
      exact h4.1
    have g1 : containsSeq ['/', '>'] (['<'] ++ n.data) = false := by
      apply containsSeq_two_append '/' '>' _ _ (by decide)
        (containsSeq_two_notmem _ _ _ hn_gt)
      intro hc
      exact hn_gt (List.mem_of_mem_head? hc.2)
    have g2 : containsSeq ['/', '>'] (['<'] ++ n.data ++ serAttrs a) = false := by
      apply containsSeq_two_append '/' '>' _ _ g1
        (containsSeq_two_notmem _ _ _ (not_gt_mem_serAttrs a hkeys))
      intro hc
      exact not_gt_mem_serAttrs a hkeys (List.mem_of_mem_head? hc.2)
    have g3 : containsSeq ['/', '>'] (['<'] ++ n.data ++ serAttrs a ++ ['>']) = false := by
      apply containsSeq_two_append '/' '>' _ _ g2 (by decide)
      intro hc
      rcases hc with ⟨hc1, _⟩
      rcases serAttrs_getLast a with hA | hA
      · rw [hA, List.append_nil, List.getLast?_append_of_ne_nil _ hn_ne] at hc1
        exact hn_slash (List.mem_of_mem_getLast? hc1)
      · have hneA : serAttrs a ≠ [] := by
          intro hh
          rw [hh] at hA
          exact Option.noConfusion hA
        rw [List.getLast?_append_of_ne_nil _ hneA, hA, Option.some.injEq] at hc1
        exact absurd hc1 (by decide)
    have g4 : containsSeq ['/', '>']
        (['<'] ++ n.data ++ serAttrs a ++ ['>'] ++ serList cs) = false := by
      apply containsSeq_two_append '/' '>' _ _ g3 (serList_noSlashGt cs hlwf)
      intro hc
      exact serList_head_not_gt cs '>' hc.2 rfl
    have g5 : containsSeq ['/', '>']
        (['<'] ++ n.data ++ serAttrs a ++ ['>'] ++ serList cs ++ ['<', '/']) = false := by
      apply containsSeq_two_append '/' '>' _ _ g4 (by decide)
      intro hc
      rcases hc with ⟨_, hc2⟩
      rw [show (['<', '/'] : List Char).head? = some '<' from rfl, Option.some.injEq] at hc2
      exact absurd hc2 (by decide)
    have g6 : containsSeq ['/', '>']
        (['<'] ++ n.data ++ serAttrs a ++ ['>'] ++ serList cs ++ ['<', '/'] ++ n.data)
        = false := by
      apply containsSeq_two_append '/' '>' _ _ g5
        (containsSeq_two_notmem _ _ _ hn_gt)
      intro hc
      exact hn_gt (List.mem_of_mem_head? hc.2)
    have g7 : containsSeq ['/', '>']
        (['<'] ++ n.data ++ serAttrs a ++ ['>'] ++ serList cs ++ ['<', '/'] ++ n.data ++ ['>'])
        = false := by
      apply containsSeq_two_append '/' '>' _ _ g6 (by decide)
      intro hc
      rcases hc with ⟨hc1, _⟩
      rw [List.getLast?_append_of_ne_nil _ hn_ne] at hc1
      exact hn_slash (List.mem_of_mem_getLast? hc1)
    rw [serNode]
    exact g7

theorem serList_noSlashGt : (cs : List SSMLNode) → listWF cs = true →
    containsSeq ['/', '>'] (serList cs) = false
  | [], _ => by rw [serList]; rfl
  | c :: cs2, h => by
    rw [listWF, Bool.and_eq_true] at h
    rw [serList]
    apply containsSeq_two_append '/' '>' _ _ (serNode_noSlashGt c h.1)
      (serList_noSlashGt cs2 h.2)
    intro hc
    exact serList_head_not_gt cs2 '>' hc.2 rfl

end

/-! ### Symbolic single steps of the parser on raw input -/

theorem children_eof (g : Nat) (t : List Char) (nm : String) (acc : List SSMLNode)
    (pos : Nat) (hpos : t.length ≤ pos) :
    parse_children (g + 1) t nm acc pos = some (.error (.missingClosingTag nm)) := by
  rw [parse_children]
  simp only []
  rw [if_pos hpos]

theorem children_elem_ok (g : Nat) (t : List Char) (nm : String) (acc : List SSMLNode)
    (pos : Nat) (c2 : Char) (r : List Char)
    (hd : t.drop pos = '<' :: c2 :: r) (hne : c2 ≠ '/')
    (child : SSMLNode) (pos1 : Nat)
    (hel : parse_element g t pos = some (.ok (child, pos1)))
    (res : Option (Except ParseErr (List SSMLNode × Nat)))
    (hrest : parse_children g t nm (acc ++ [child]) pos1 = res) :
    parse_children (g + 1) t nm acc pos = res := by
  have hlen0 : pos < t.length := by
    have h2 := congrArg List.length hd
    rw [List.length_drop] at h2
    simp only [List.length_cons] at h2
    omega
  have hget : t[pos]? = some '<' := by
    rw [getElem?_eq_head?_drop, hd]
    rfl
  have hsw : startswith t pos ['<', '/'] = false :=
    startswith_false_second t pos '<' c2 r '<' '/' hd hne
  rw [parse_children]
  simp only []
  rw [if_neg (by omega : ¬t.length ≤ pos), if_neg (by rw [hsw]; simp), if_pos hget, hel]
  simp only []
  exact hrest

theorem children_elem_err (g : Nat) (t : List Char) (nm : String) (acc : List SSMLNode)
    (pos : Nat) (c2 : Char) (r : List Char)
    (hd : t.drop pos = '<' :: c2 :: r) (hne : c2 ≠ '/')
    (e : ParseErr) (hel : parse_element g t pos = some (.error e)) :
    parse_children (g + 1) t nm acc pos = some (.error e) := by
  have hlen0 : pos < t.length := by
    have h2 := congrArg List.length hd
    rw [List.length_drop] at h2
    simp only [List.length_cons] at h2
    omega
  have hget : t[pos]? = some '<' := by
    rw [getElem?_eq_head?_drop, hd]
    rfl
  have hsw : startswith t pos ['<', '/'] = false :=
    startswith_false_second t pos '<' c2 r '<' '/' hd hne
  rw [parse_children]
  simp only []
  rw [if_neg (by omega : ¬t.length ≤ pos), if_neg (by rw [hsw]; simp), if_pos hget, hel]

theorem children_close_run (g : Nat) (t : List Char) (nm : String) (acc : List SSMLNode)
    (pos : Nat) (b : String) (rest : List Char)
    (hd : t.drop pos = '<' :: '/' :: (b.data ++ '>' :: rest))
    (hbne : b.data ≠ []) (hball : ∀ c ∈ b.data, tagNameChar c = true) :
    parse_children (g + 1) t nm acc pos =
      if b ≠ nm then some (.error (.mismatchedClosingTag nm b))
      else some (.ok (acc, pos + b.data.length + 3)) := by
  obtain ⟨bc, btl, hbd⟩ := List.exists_cons_of_ne_nil hbne
  have hlenpos : pos < t.length := by
    have h2 := congrArg List.length hd
    rw [List.length_drop] at h2
    simp only [List.length_append, List.length_cons] at h2
    omega
  have hd2 : t.drop (pos + 2) = b.data ++ '>' :: rest := by
    have h2 := drop_add_of_drop t _ pos 2 hd
    simpa using h2
  have hsw : startswith t pos ['<', '/'] = true := by
    apply startswith_of_drop t pos ['<', '/'] (b.data ++ '>' :: rest)
    rw [hd]
    rfl
  have hskipA : skipWs t (pos + 2) = pos + 2 := by
    apply skipWs_stop
    rw [hd2, hbd]
    intro c hc
    simp only [List.cons_append, List.head?_cons, Option.some.injEq] at hc
    rw [← hc]
    exact tagNameChar_not_ws bc (hball bc (by rw [hbd]; simp))
  have hname : parse_tag_name t (pos + 2) = .ok (b, pos + 2 + b.data.length) := by
    have h2 := parse_tag_name_run t (pos + 2) b.data _ hd2 hbne hball
      (by
        intro c hc
        rw [List.head?_cons, Option.some.injEq] at hc
        rw [← hc]
        decide)
    exact h2
  have hd3 : t.drop (pos + 2 + b.data.length) = '>' :: rest := by
    have h2 := drop_add_of_drop t _ (pos + 2) b.data.length hd2
    rw [List.drop_left] at h2
    exact h2
  have hskipB : skipWs t (pos + 2 + b.data.length) = pos + 2 + b.data.length := by
    apply skipWs_stop
    rw [hd3]
    intro c hc
    simp only [List.head?_cons, Option.some.injEq] at hc
    rw [← hc]
    decide
  have hget3 : t[pos + 2 + b.data.length]? = some '>' := by
    rw [getElem?_eq_head?_drop, hd3]
    rfl
  have hlen3 : pos + 2 + b.data.length < t.length := by
    have h2 := congrArg List.length hd3
    rw [List.length_drop] at h2
    simp only [List.length_cons] at h2
    omega
  rw [parse_children]
  simp only []
  rw [if_neg (by omega : ¬t.length ≤ pos), if_pos hsw, hskipA, hname]
  simp only []
  rw [hskipB]
  rw [if_neg (by
    rw [hget3]
    simp only [not_or, ne_eq, not_not]
    exact ⟨by omega, trivial⟩)]
  rw [show pos + 2 + b.data.length + 1 = pos + b.data.length + 3 from by omega]

theorem children_close_match (g : Nat) (t : List Char) (nm : String) (acc : List SSMLNode)
    (pos : Nat) (b : String) (rest : List Char)
    (hd : t.drop pos = '<' :: '/' :: (b.data ++ '>' :: rest))
    (hbne : b.data ≠ []) (hball : ∀ c ∈ b.data, tagNameChar c = true) (heq : b = nm) :
    parse_children (g + 1) t nm acc pos = some (.ok (acc, pos + b.data.length + 3)) := by
  rw [children_close_run g t nm acc pos b rest hd hbne hball, if_neg (fun hcc => hcc heq)]

theorem children_close_mismatch (g : Nat) (t : List Char) (nm : String) (acc : List SSMLNode)
    (pos : Nat) (b : String) (rest : List Char)
    (hd : t.drop pos = '<' :: '/' :: (b.data ++ '>' :: rest))
    (hbne : b.data ≠ []) (hball : ∀ c ∈ b.data, tagNameChar c = true) (hne : b ≠ nm) :
    parse_children (g + 1) t nm acc pos = some (.error (.mismatchedClosingTag nm b)) := by
  rw [children_close_run g t nm acc pos b rest hd hbne hball, if_pos hne]

theorem elem_open_run_ok (g : Nat) (t : List Char) (pos : Nat) (n : String)
    (a : List (String × String)) (rest : List Char)
    (hd : t.drop pos = '<' :: (n.data ++ (serAttrs a ++ '>' :: rest)))
    (hnwf : nameWF n = true)
    (hkv : ∀ kv ∈ a, attrKeyWF kv.1 = true ∧ '"' ∉ kv.2.data ∧ '<' ∉ kv.2.data ∧
      '>' ∉ kv.2.data)
    (q : Nat) (hq : q = pos + 1 + n.data.length + (serAttrs a).length + 1)
    (cs : List SSMLNode) (p5 : Nat)
    (hch : parse_children g t n [] q = some (.ok (cs, p5))) :
    parse_element (g + 1) t pos = some (.ok (.tag n (foldDict [] a) cs, p5)) := by
  subst hq
  have hnwf2 := hnwf
  rw [nameWF, Bool.and_eq_true] at hnwf2
  have hn_ne : n.data ≠ [] := by simpa using hnwf2.1
  have hn_all : ∀ c ∈ n.data, tagNameChar c = true := by
    have := hnwf2.2
    rw [List.all_eq_true] at this
    exact this
  obtain ⟨nc, ntl, hnd⟩ := List.exists_cons_of_ne_nil hn_ne
  have hd1 : t.drop (pos + 1) = n.data ++ (serAttrs a ++ '>' :: rest) := by
    have h2 := drop_add_of_drop t _ pos 1 hd
    simpa using h2
  have hd2 : t.drop (pos + 1 + n.data.length) = serAttrs a ++ '>' :: rest := by
    have h2 := drop_add_of_drop t _ (pos + 1) n.data.length hd1
    rw [List.drop_left] at h2
    exact h2
  have hd3 : t.drop (pos + 1 + n.data.length + (serAttrs a).length) = '>' :: rest := by
    have h2 := drop_add_of_drop t _ (pos + 1 + n.data.length) (serAttrs a).length hd2
    rw [List.drop_left] at h2
    exact h2
  have hget0 : t[pos]? = some '<' := by
    rw [getElem?_eq_head?_drop, hd]
    rfl
  have hskipA : skipWs t (pos + 1) = pos + 1 := by
    apply skipWs_stop
    rw [hd1, hnd]
    intro c hc
    simp only [List.cons_append, List.head?_cons, Option.some.injEq] at hc
    rw [← hc]
    exact tagNameChar_not_ws nc (hn_all nc (by rw [hnd]; simp))
  have hname : parse_tag_name t (pos + 1) = .ok (n, pos + 1 + n.data.length) := by
    have h2 := parse_tag_name_run t (pos + 1) n.data _ hd1 hn_ne hn_all
      (serAttrs_head_stop a _)
    exact h2
  have hfattr : a.length < t.length + 1 := by
    have h2 := serAttrs_length_ge a
    have h3 := congrArg List.length hd2
    rw [List.length_drop] at h3
    simp only [List.length_append, List.length_cons] at h3
    omega
  have hattrs : parse_attributes (t.length + 1) t [] (pos + 1 + n.data.length) =
      some (.ok (foldDict [] a, pos + 1 + n.data.length + (serAttrs a).length)) :=
    run_attrs a (t.length + 1) t [] (pos + 1 + n.data.length) _ hfattr hd2 hkv
  have hskip4 : skipWs t (pos + 1 + n.data.length + (serAttrs a).length) =
      pos + 1 + n.data.length + (serAttrs a).length := by
    apply skipWs_stop
    rw [hd3]
    intro c hc
    simp only [List.head?_cons, Option.some.injEq] at hc
    rw [← hc]
    decide
  have hsw : startswith t (pos + 1 + n.data.length + (serAttrs a).length)
      ['/', '>'] = false :=
    startswith_false_first t _ '>' _ '/' ['>'] hd3 (by decide)
  have hget3 : t[pos + 1 + n.data.length + (serAttrs a).length]? = some '>' := by
    rw [getElem?_eq_head?_drop, hd3]
    rfl
  rw [parse_element]
  simp only []
  rw [if_neg (fun hcc => hcc hget0), hskipA, hname]
  simp only []
  rw [parse_attributes_skipWs, hattrs]
  simp only []
  rw [hskip4]
  rw [if_neg (by rw [hsw]; simp)]
  rw [if_pos hget3, hch]

theorem elem_open_run_err (g : Nat) (t : List Char) (pos : Nat) (n : String)
    (a : List (String × String)) (rest : List Char)
    (hd : t.drop pos = '<' :: (n.data ++ (serAttrs a ++ '>' :: rest)))
    (hnwf : nameWF n = true)
    (hkv : ∀ kv ∈ a, attrKeyWF kv.1 = true ∧ '"' ∉ kv.2.data ∧ '<' ∉ kv.2.data ∧
      '>' ∉ kv.2.data)
    (q : Nat) (hq : q = pos + 1 + n.data.length + (serAttrs a).length + 1)
    (e : ParseErr)
    (hch : parse_children g t n [] q = some (.error e)) :
    parse_element (g + 1) t pos = some (.error e) := by
  subst hq
  have hnwf2 := hnwf
  rw [nameWF, Bool.and_eq_true] at hnwf2
  have hn_ne : n.data ≠ [] := by simpa using hnwf2.1
  have hn_all : ∀ c ∈ n.data, tagNameChar c = true := by
    have := hnwf2.2
    rw [List.all_eq_true] at this
    exact this
  obtain ⟨nc, ntl, hnd⟩ := List.exists_cons_of_ne_nil hn_ne
  have hd1 : t.drop (pos + 1) = n.data ++ (serAttrs a ++ '>' :: rest) := by
    have h2 := drop_add_of_drop t _ pos 1 hd
    simpa using h2
  have hd2 : t.drop (pos + 1 + n.data.length) = serAttrs a ++ '>' :: rest := by
    have h2 := drop_add_of_drop t _ (pos + 1) n.data.length hd1
    rw [List.drop_left] at h2
    exact h2
  have hd3 : t.drop (pos + 1 + n.data.length + (serAttrs a).length) = '>' :: rest := by
    have h2 := drop_add_of_drop t _ (pos + 1 + n.data.length) (serAttrs a).length hd2
    rw [List.drop_left] at h2
    exact h2
  have hget0 : t[pos]? = some '<' := by
    rw [getElem?_eq_head?_drop, hd]
    rfl
  have hskipA : skipWs t (pos + 1) = pos + 1 := by
    apply skipWs_stop
    rw [hd1, hnd]
    intro c hc
    simp only [List.cons_append, List.head?_cons, Option.some.injEq] at hc
    rw [← hc]
    exact tagNameChar_not_ws nc (hn_all nc (by rw [hnd]; simp))
  have hname : parse_tag_name t (pos + 1) = .ok (n, pos + 1 + n.data.length) := by
    have h2 := parse_tag_name_run t (pos + 1) n.data _ hd1 hn_ne hn_all
      (serAttrs_head_stop a _)
    exact h2
  have hfattr : a.length < t.length + 1 := by
    have h2 := serAttrs_length_ge a
    have h3 := congrArg List.length hd2
    rw [List.length_drop] at h3
    simp only [List.length_append, List.length_cons] at h3
    omega
  have hattrs : parse_attributes (t.length + 1) t [] (pos + 1 + n.data.length) =
      some (.ok (foldDict [] a, pos + 1 + n.data.length + (serAttrs a).length)) :=
    run_attrs a (t.length + 1) t [] (pos + 1 + n.data.length) _ hfattr hd2 hkv
  have hskip4 : skipWs t (pos + 1 + n.data.length + (serAttrs a).length) =
      pos + 1 + n.data.length + (serAttrs a).length := by
    apply skipWs_stop
    rw [hd3]
    intro c hc
    simp only [List.head?_cons, Option.some.injEq] at hc
    rw [← hc]
    decide
  have hsw : startswith t (pos + 1 + n.data.length + (serAttrs a).length)
      ['/', '>'] = false :=
    startswith_false_first t _ '>' _ '/' ['>'] hd3 (by decide)
  have hget3 : t[pos + 1 + n.data.length + (serAttrs a).length]? = some '>' := by
    rw [getElem?_eq_head?_drop, hd3]
    rfl
  rw [parse_element]
  simp only []
  rw [if_neg (fun hcc => hcc hget0), hskipA, hname]
  simp only []
  rw [parse_attributes_skipWs, hattrs]
  simp only []
  rw [hskip4]
  rw [if_neg (by rw [hsw]; simp)]
  rw [if_pos hget3, hch]

theorem elem_selfclose_run (g : Nat) (t : List Char) (pos : Nat) (n : String)
    (rest : List Char)
    (hd : t.drop pos = '<' :: (n.data ++ '/' :: '>' :: rest))
    (hnwf : nameWF n = true) :
    parse_element (g + 1) t pos = some (.ok (.tag n [] [], pos + n.data.length + 3)) := by
  have hnwf2 := hnwf
  rw [nameWF, Bool.and_eq_true] at hnwf2
  have hn_ne : n.data ≠ [] := by simpa using hnwf2.1
  have hn_all : ∀ c ∈ n.data, tagNameChar c = true := by
    have := hnwf2.2
    rw [List.all_eq_true] at this
    exact this
  obtain ⟨nc, ntl, hnd⟩ := List.exists_cons_of_ne_nil hn_ne
  have hd1 : t.drop (pos + 1) = n.data ++ '/' :: '>' :: rest := by
    have h2 := drop_add_of_drop t _ pos 1 hd
    simpa using h2
  have hd2 : t.drop (pos + 1 + n.data.length) = '/' :: '>' :: rest := by
    have h2 := drop_add_of_drop t _ (pos + 1) n.data.length hd1
    rw [List.drop_left] at h2
    exact h2
  have hget0 : t[pos]? = some '<' := by
    rw [getElem?_eq_head?_drop, hd]
    rfl
  have hskipA : skipWs t (pos + 1) = pos + 1 := by
    apply skipWs_stop
    rw [hd1, hnd]
    intro c hc
    simp only [List.cons_append, List.head?_cons, Option.some.injEq] at hc
    rw [← hc]
    exact tagNameChar_not_ws nc (hn_all nc (by rw [hnd]; simp))
  have hname : parse_tag_name t (pos + 1) = .ok (n, pos + 1 + n.data.length) := by
    have h2 := parse_tag_name_run t (pos + 1) n.data _ hd1 hn_ne hn_all
      (by
        intro c hc
        rw [List.head?_cons, Option.some.injEq] at hc
        rw [← hc]
        decide)
    exact h2
  have hslash : t[pos + 1 + n.data.length]? = some '/' := by
    rw [getElem?_eq_head?_drop, hd2]
    rfl
  have hskipB : skipWs t (pos + 1 + n.data.length) = pos + 1 + n.data.length := by
    apply skipWs_stop
    rw [hd2]
    intro c hc
    simp only [List.head?_cons, Option.some.injEq] at hc
    rw [← hc]
    decide
  have hattrs : parse_attributes (t.length + 1) t [] (pos + 1 + n.data.length) =
      some (.ok ([], pos + 1 + n.data.length)) := by
    rw [parse_attributes]
    simp only []
    rw [hskipB, if_pos (Or.inr (Or.inl hslash))]
  have hswt : startswith t (pos + 1 + n.data.length) ['/', '>'] = true := by
    apply startswith_of_drop t _ ['/', '>'] rest
    rw [hd2]
    rfl
  rw [parse_element]
  simp only []
  rw [if_neg (fun hcc => hcc hget0), hskipA, hname]
  simp only []
  rw [parse_attributes_skipWs, hattrs]
  simp only []
  rw [hskipB]
  rw [if_pos hswt]
  rw [show pos + 1 + n.data.length + 2 = pos + n.data.length + 3 from by omega]

theorem missing_msg_contains (a : String) :
    containsSeq a.data (errMsg (.missingClosingTag a)).data = true := by
  rw [errMsg]
  have hsh : ("Missing closing tag for <" ++ a ++ ">").data =
      "Missing closing tag for <".data ++ (a.data ++ ">".data) := by
    simp only [String.data_append, List.append_assoc]
  rw [hsh]
  exact containsSeq_append_mid a.data _ _

theorem foldDict_dup (k v1 v2 : String) : foldDict [] [(k, v1), (k, v2)] = [(k, v2)] := by
  have h1 : dictInsert [] k v1 = [(k, v1)] := by
    rw [dictInsert, if_neg (by simp)]
    rfl
  rw [foldDict]
  simp only [List.foldl_cons, List.foldl_nil]
  rw [h1, dictInsert, if_pos (by simp)]
  simp

/-! ### Symbolic whole-input runs for the closing-tag, self-closing and
duplicate-attribute claims -/

theorem eof_general (a : String) (ha : nameWF a = true) :
    parseSSML ("<" ++ a ++ ">") = .error (.missingClosingTag a) := by
  set t : List Char := ("<" ++ a ++ ">").data with ht
  have hsd : t = '<' :: (a.data ++ ['>']) := by
    rw [ht]
    simp only [String.data_append]
    simp
  have hL : t.length = a.data.length + 2 := by
    rw [hsd]
    simp only [List.length_cons, List.length_append, List.length_nil]
  have hd0 : t.drop 0 = '<' :: (a.data ++ (serAttrs [] ++ '>' :: [])) := by
    rw [List.drop_zero, hsd, show serAttrs [] = ([] : List Char) from rfl]
    simp
  have hfA : 2 * t.length = (2 * t.length - 1) + 1 := by omega
  have hpos : t.length ≤
      0 + 1 + a.data.length + (serAttrs ([] : List (String × String))).length + 1 := by
    rw [show (serAttrs ([] : List (String × String))).length = 0 from rfl]
    omega
  have helem : parse_element (2 * t.length + 1) t 0 =
      some (.error (.missingClosingTag a)) := by
    apply elem_open_run_err (2 * t.length) t 0 a [] _ hd0 ha
      (fun kv hkv => absurd hkv (List.not_mem_nil kv))
      (0 + 1 + a.data.length + (serAttrs ([] : List (String × String))).length + 1) rfl
    rw [hfA]
    exact children_eof (2 * t.length - 1) t a [] _ hpos
  have hhead : t[0]? = some '<' := by
    rw [getElem?_eq_head?_drop, List.drop_zero, hsd]
    rfl
  exact core_of_element_err _ _ hhead helem

theorem mismatch_general (a b : String) (ha : nameWF a = true) (hb : nameWF b = true)
    (hba : b ≠ a) :
    parseSSML ("<speak><" ++ a ++ "></" ++ b ++ "></speak>") =
      .error (.mismatchedClosingTag a b) := by
  have ha2 := ha
  rw [nameWF, Bool.and_eq_true] at ha2
  have ha_ne : a.data ≠ [] := by simpa using ha2.1
  have ha_all : ∀ c ∈ a.data, tagNameChar c = true := by
    have := ha2.2
    rw [List.all_eq_true] at this
    exact this
  obtain ⟨ac, atl, had⟩ := List.exists_cons_of_ne_nil ha_ne
  have hac : ac ≠ '/' := (tagNameChar_facts ac (ha_all ac (by rw [had]; simp))).2.1
  have hb2 := hb
  rw [nameWF, Bool.and_eq_true] at hb2
  have hb_ne : b.data ≠ [] := by simpa using hb2.1
  have hb_all : ∀ c ∈ b.data, tagNameChar c = true := by
    have := hb2.2
    rw [List.all_eq_true] at this
    exact this
  set t : List Char := ("<speak><" ++ a ++ "></" ++ b ++ "></speak>").data with ht
  have hsd : t = '<' :: 's' :: 'p' :: 'e' :: 'a' :: 'k' :: '>' :: '<' ::
      (a.data ++ '>' :: '<' :: '/' :: (b.data ++ '>' :: '<' :: '/' ::
        's' :: 'p' :: 'e' :: 'a' :: 'k' :: '>' :: [])) := by
    rw [ht]
    simp only [String.data_append]
    simp
  have hL : t.length = 20 + a.data.length + b.data.length := by
    rw [hsd]
    simp only [List.length_cons, List.length_append, List.length_nil]
    omega
  have hfA : 2 * t.length = (2 * t.length - 1) + 1 := by omega
  have hfB : 2 * t.length - 1 = (2 * t.length - 2) + 1 := by omega
  have hfC : 2 * t.length - 2 = (2 * t.length - 3) + 1 := by omega
  have hd0 : t.drop 0 = '<' :: (("speak" : String).data ++ (serAttrs [] ++ '>' ::
      ('<' :: (a.data ++ '>' :: '<' :: '/' :: (b.data ++ '>' :: '<' :: '/' ::
        's' :: 'p' :: 'e' :: 'a' :: 'k' :: '>' :: []))))) := by
    rw [List.drop_zero, hsd, show ("speak" : String).data = ['s','p','e','a','k'] from rfl,
      show serAttrs [] = ([] : List Char) from rfl]
    simp
  have hd7 : t.drop 7 = '<' :: (a.data ++ (serAttrs [] ++ '>' ::
      ('<' :: '/' :: (b.data ++ '>' :: '<' :: '/' ::
        's' :: 'p' :: 'e' :: 'a' :: 'k' :: '>' :: [])))) := by
    rw [hsd, show serAttrs [] = ([] : List Char) from rfl]
    simp
  have hd7c : t.drop 7 = '<' :: ac :: (atl ++ '>' :: '<' :: '/' :: (b.data ++ '>' :: '<' :: '/' ::
      's' :: 'p' :: 'e' :: 'a' :: 'k' :: '>' :: [])) := by
    rw [hsd, had]
    simp
  have hpre : t.drop 8 = (a.data ++ ['>']) ++ ('<' :: '/' :: (b.data ++ '>' :: '<' :: '/' ::
      's' :: 'p' :: 'e' :: 'a' :: 'k' :: '>' :: [])) := by
    rw [hsd]
    simp
  have hdc0 := drop_add_of_drop t _ 8 (a.data ++ ['>']).length hpre
  rw [List.drop_left] at hdc0
  have hdc : t.drop (9 + a.data.length) = '<' :: '/' :: (b.data ++ '>' ::
      ('<' :: '/' :: 's' :: 'p' :: 'e' :: 'a' :: 'k' :: '>' :: [])) := by
    rw [show 9 + a.data.length = 8 + (a.data ++ ['>']).length from by
      simp only [List.length_append, List.length_cons, List.length_nil]
      omega]
    exact hdc0
  have hclose : parse_children ((2 * t.length - 3) + 1) t a [] (9 + a.data.length) =
      some (.error (.mismatchedClosingTag a b)) :=
    children_close_mismatch (2 * t.length - 3) t a [] (9 + a.data.length) b _ hdc hb_ne
      hb_all hba
  have helem2 : parse_element ((2 * t.length - 2) + 1) t 7 =
      some (.error (.mismatchedClosingTag a b)) := by
    apply elem_open_run_err (2 * t.length - 2) t 7 a [] _ hd7 ha
      (fun kv hkv => absurd hkv (List.not_mem_nil kv)) (9 + a.data.length)
      (by
        rw [show (serAttrs ([] : List (String × String))).length = 0 from rfl]
        omega)
    rw [hfC]
    exact hclose
  have hstep : parse_children ((2 * t.length - 1) + 1) t "speak" [] 7 =
      some (.error (.mismatchedClosingTag a b)) := by
    apply children_elem_err (2 * t.length - 1) t "speak" [] 7 ac _ hd7c hac
    rw [hfB]
    exact helem2
  have helem : parse_element (2 * t.length + 1) t 0 =
      some (.error (.mismatchedClosingTag a b)) := by
    apply elem_open_run_err (2 * t.length) t 0 "speak" [] _ hd0 (by decide)
      (fun kv hkv => absurd hkv (List.not_mem_nil kv)) 7 (by decide)
    rw [hfA]
    exact hstep
  have hhead : t[0]? = some '<' := by
    rw [getElem?_eq_head?_drop, List.drop_zero, hsd]
    rfl
  exact core_of_element_err _ _ hhead helem

theorem selfclose_general (a : String) (ha : nameWF a = true) :
    parseSSML ("<speak><" ++ a ++ "/></speak>") = .ok (.tag "speak" [] [.tag a [] []]) := by
  have ha2 := ha
  rw [nameWF, Bool.and_eq_true] at ha2
  have ha_ne : a.data ≠ [] := by simpa using ha2.1
  have ha_all : ∀ c ∈ a.data, tagNameChar c = true := by
    have := ha2.2
    rw [List.all_eq_true] at this
    exact this
  obtain ⟨ac, atl, had⟩ := List.exists_cons_of_ne_nil ha_ne
  have hac : ac ≠ '/' := (tagNameChar_facts ac (ha_all ac (by rw [had]; simp))).2.1
  set t : List Char := ("<speak><" ++ a ++ "/></speak>").data with ht
  have hsd : t = '<' :: 's' :: 'p' :: 'e' :: 'a' :: 'k' :: '>' :: '<' ::
      (a.data ++ '/' :: '>' :: '<' :: '/' :: 's' :: 'p' :: 'e' :: 'a' :: 'k' :: '>' :: []) := by
    rw [ht]
    simp only [String.data_append]
    simp
  have hsp5 : ("speak" : String).data.length = 5 := rfl
  have hL : t.length = a.data.length + 18 := by
    have h2 := congrArg List.length hsd
    simp only [List.length_cons, List.length_append, List.length_nil] at h2
    omega
  have hfA : 2 * t.length = (2 * t.length - 1) + 1 := by omega
  have hfB : 2 * t.length - 1 = (2 * t.length - 2) + 1 := by omega
  have hd0 : t.drop 0 = '<' :: (("speak" : String).data ++ (serAttrs [] ++ '>' ::
      ('<' :: (a.data ++ '/' :: '>' :: '<' :: '/' ::
        's' :: 'p' :: 'e' :: 'a' :: 'k' :: '>' :: [])))) := by
    rw [List.drop_zero, hsd, show ("speak" : String).data = ['s','p','e','a','k'] from rfl,
      show serAttrs [] = ([] : List Char) from rfl]
    simp
  have hd7 : t.drop 7 = '<' :: ac :: (atl ++ '/' :: '>' :: '<' :: '/' ::
      's' :: 'p' :: 'e' :: 'a' :: 'k' :: '>' :: []) := by
    rw [hsd, had]
    simp
  have hd7e : t.drop 7 = '<' :: (a.data ++ '/' :: '>' ::
      ('<' :: '/' :: 's' :: 'p' :: 'e' :: 'a' :: 'k' :: '>' :: [])) := by
    rw [hsd]
    simp
  have helem_a : parse_element ((2 * t.length - 2) + 1) t 7 =
      some (.ok (.tag a [] [], 7 + a.data.length + 3)) :=
    elem_selfclose_run (2 * t.length - 2) t 7 a _ hd7e ha
  have hpre : t.drop 8 = (a.data ++ ['/', '>']) ++ ('<' :: '/' ::
      ('s' :: 'p' :: 'e' :: 'a' :: 'k' :: '>' :: [])) := by
    rw [hsd]
    simp
  have hdc0 := drop_add_of_drop t _ 8 (a.data ++ ['/', '>']).length hpre
  rw [List.drop_left] at hdc0
  have hdc : t.drop (7 + a.data.length + 3) = '<' :: '/' ::
      (("speak" : String).data ++ '>' :: []) := by
    rw [show 7 + a.data.length + 3 = 8 + (a.data ++ ['/', '>']).length from by
      simp only [List.length_append, List.length_cons, List.length_nil]
      omega]
    rw [hdc0, show ("speak" : String).data = ['s','p','e','a','k'] from rfl]
    simp
  have hclose : parse_children ((2 * t.length - 2) + 1) t "speak" [SSMLNode.tag a [] []]
      (7 + a.data.length + 3) =
      some (.ok ([SSMLNode.tag a [] []],
        7 + a.data.length + 3 + ("speak" : String).data.length + 3)) :=
    children_close_match (2 * t.length - 2) t "speak" [SSMLNode.tag a [] []]
      (7 + a.data.length + 3) "speak" _ hdc (by decide) (by decide) rfl
  have hstep : parse_children ((2 * t.length - 1) + 1) t "speak" [] 7 =
      some (.ok ([SSMLNode.tag a [] []],
        7 + a.data.length + 3 + ("speak" : String).data.length + 3)) := by
    refine children_elem_ok (2 * t.length - 1) t "speak" [] 7 ac _ hd7 hac
      (SSMLNode.tag a [] []) (7 + a.data.length + 3) ?_ _ ?_
    · rw [hfB]
      exact helem_a
    · rw [hfB]
      exact hclose
  have helem0 : parse_element (2 * t.length + 1) t 0 =
      some (.ok (.tag "speak" (foldDict [] []) [SSMLNode.tag a [] []],
        7 + a.data.length + 3 + ("speak" : String).data.length + 3)) := by
    refine elem_open_run_ok (2 * t.length) t 0 "speak" [] _ hd0 (by decide)
      (fun kv hkv => absurd hkv (List.not_mem_nil kv)) 7 (by decide)
      [SSMLNode.tag a [] []] _ ?_
    rw [hfA]
    exact hstep
  have helem : parse_element (2 * t.length + 1) t 0 =
      some (.ok (.tag "speak" [] [SSMLNode.tag a [] []], t.length)) := by
    rw [helem0]
    rw [show foldDict [] ([] : List (String × String)) = [] from rfl]
    rw [show 7 + a.data.length + 3 + ("speak" : String).data.length + 3 = t.length from by
      omega]
  have hhead : t[0]? = some '<' := by
    rw [getElem?_eq_head?_drop, List.drop_zero, hsd]
    rfl
  exact core_of_element _ [] [SSMLNode.tag a [] []] hhead helem

theorem explicit_close_general (a : String) (ha : nameWF a = true) :
    parseSSML ("<speak><" ++ a ++ "></" ++ a ++ "></speak>") =
      .ok (.tag "speak" [] [.tag a [] []]) := by
  have hwf : nodeWF (.tag "speak" [] [.tag a [] []]) = true := by
    rw [nodeWF]
    simp only [Bool.and_eq_true]
    refine ⟨⟨⟨by decide, by decide⟩, rfl⟩, ?_⟩
    rw [listWF, nodeWF]
    simp only [Bool.and_eq_true]
    exact ⟨⟨⟨⟨ha, by decide⟩, rfl⟩, rfl⟩, rfl⟩
  have hna : nodeNoAngle (.tag "speak" [] [.tag a [] []]) = true := rfl
  have hdata : ("<speak><" ++ a ++ "></" ++ a ++ "></speak>").data =
      serNode (.tag "speak" [] [.tag a [] []]) := by
    simp only [String.data_append]
    rw [serNode, serList, serNode, serList,
      show serAttrs ([] : List (String × String)) = ([] : List Char) from rfl]
    simp
  exact parse_serialized _ hwf hna [] [.tag a [] []] rfl _ hdata

theorem dup_attr_general (k v1 v2 : String) (hk : attrKeyWF k = true)
    (h1q : '"' ∉ v1.data) (h1a : '&' ∉ v1.data) (h1l : '<' ∉ v1.data) (h1g : '>' ∉ v1.data)
    (h2q : '"' ∉ v2.data) (h2a : '&' ∉ v2.data) (h2l : '<' ∉ v2.data) (h2g : '>' ∉ v2.data) :
    parseSSML ("<speak " ++ k ++ "=\"" ++ v1 ++ "\" " ++ k ++ "=\"" ++ v2 ++ "\"></speak>") =
      .ok (.tag "speak" [(k, v2)] []) := by
  have hesc1 : escapeL v1.data = v1.data := escapeL_eq_self v1.data h1l h1g h1a
  have hesc2 : escapeL v2.data = v2.data := escapeL_eq_self v2.data h2l h2g h2a
  set t : List Char :=
    ("<speak " ++ k ++ "=\"" ++ v1 ++ "\" " ++ k ++ "=\"" ++ v2 ++ "\"></speak>").data with ht
  have hd0 : t.drop 0 = '<' :: (("speak" : String).data ++ (serAttrs [(k, v1), (k, v2)] ++ '>' ::
      ('<' :: '/' :: ('s' :: 'p' :: 'e' :: 'a' :: 'k' :: '>' :: [])))) := by
    rw [List.drop_zero, ht]
    simp only [String.data_append]
    rw [serAttrs, serAttrs, serAttrs, hesc1, hesc2]
    simp
  have hkv : ∀ kv ∈ [(k, v1), (k, v2)], attrKeyWF kv.1 = true ∧ '"' ∉ kv.2.data ∧
      '<' ∉ kv.2.data ∧ '>' ∉ kv.2.data := by
    intro kv hm
    rcases List.mem_cons.mp hm with h | hm2
    · rw [h]
      exact ⟨hk, h1q, h1l, h1g⟩
    · rcases List.mem_cons.mp hm2 with h | hm3
      · rw [h]
        exact ⟨hk, h2q, h2l, h2g⟩
      · exact absurd hm3 (List.not_mem_nil kv)
  have hsp5 : ("speak" : String).data.length = 5 := rfl
  have hL : t.length = (serAttrs [(k, v1), (k, v2)]).length + 15 := by
    have h2 := congrArg List.length hd0
    rw [List.drop_zero] at h2
    rw [h2]
    simp only [List.length_cons, List.length_append, List.length_nil]
    omega
  have hfA : 2 * t.length = (2 * t.length - 1) + 1 := by omega
  have hq7 : 7 + (serAttrs [(k, v1), (k, v2)]).length =
      0 + 1 + ("speak" : String).data.length + (serAttrs [(k, v1), (k, v2)]).length + 1 := by
    omega
  have hdpre : t.drop 0 = (('<' :: (("speak" : String).data ++ serAttrs [(k, v1), (k, v2)])) ++
      ['>']) ++ ('<' :: '/' :: (("speak" : String).data ++ '>' :: [])) := by
    rw [hd0, show ("speak" : String).data = ['s','p','e','a','k'] from rfl]
    simp
  have hdc0 := drop_add_of_drop t _ 0
    ((('<' :: (("speak" : String).data ++ serAttrs [(k, v1), (k, v2)])) ++ ['>']).length) hdpre
  rw [List.drop_left] at hdc0
  have hdc : t.drop (7 + (serAttrs [(k, v1), (k, v2)]).length) = '<' :: '/' ::
      (("speak" : String).data ++ '>' :: []) := by
    rw [show 7 + (serAttrs [(k, v1), (k, v2)]).length =
        0 + ((('<' :: (("speak" : String).data ++ serAttrs [(k, v1), (k, v2)])) ++
          ['>']).length) from by
      simp only [List.length_append, List.length_cons, List.length_nil]
      omega]
    exact hdc0
  have hclose : parse_children ((2 * t.length - 1) + 1) t "speak" []
      (7 + (serAttrs [(k, v1), (k, v2)]).length) =
      some (.ok ([], 7 + (serAttrs [(k, v1), (k, v2)]).length +
        ("speak" : String).data.length + 3)) :=
    children_close_match (2 * t.length - 1) t "speak" []
      (7 + (serAttrs [(k, v1), (k, v2)]).length) "speak" _ hdc (by decide) (by decide) rfl
  have helem0 : parse_element (2 * t.length + 1) t 0 =
      some (.ok (.tag "speak" (foldDict [] [(k, v1), (k, v2)]) [],
        7 + (serAttrs [(k, v1), (k, v2)]).length + ("speak" : String).data.length + 3)) := by
    refine elem_open_run_ok (2 * t.length) t 0 "speak" [(k, v1), (k, v2)] _ hd0 (by decide)
      hkv (7 + (serAttrs [(k, v1), (k, v2)]).length) hq7 [] _ ?_
    rw [hfA]
    exact hclose
  have helem : parse_element (2 * t.length + 1) t 0 =
      some (.ok (.tag "speak" [(k, v2)] [], t.length)) := by
    rw [helem0, foldDict_dup]
    rw [show 7 + (serAttrs [(k, v1), (k, v2)]).length + ("speak" : String).data.length + 3 =
        t.length from by
      omega]
  have hhead : t[0]? = some '<' := by
    rw [getElem?_eq_head?_drop, hd0]
    rfl
  exact core_of_element _ [(k, v2)] [] hhead helem

/-- C7: a closing tag must match the currently open tag exactly and
case-sensitively: for any two distinct well-formed names the parser raises
the mismatched-closing-tag error whose message names both the expected and
the found tag; reaching end of input with a tag still open raises the
missing-closing-tag error naming the unclosed tag; in particular
`<speak><voice></speak>` reports `voice` vs `speak`. -/
theorem C7_closing_tag :
    (∀ a b : String, nameWF a = true → nameWF b = true → b ≠ a →
      parseSSML ("<speak><" ++ a ++ "></" ++ b ++ "></speak>") =
        .error (.mismatchedClosingTag a b) ∧
      containsSeq a.data (errMsg (.mismatchedClosingTag a b)).data = true ∧
      containsSeq b.data (errMsg (.mismatchedClosingTag a b)).data = true) ∧
    (∀ a : String, nameWF a = true →
      parseSSML ("<" ++ a ++ ">") = .error (.missingClosingTag a) ∧
      containsSeq a.data (errMsg (.missingClosingTag a)).data = true) ∧
    parseSSML "<speak><voice></speak>" = .error (.mismatchedClosingTag "voice" "speak") :=
  ⟨fun a b ha hb hba => ⟨mismatch_general a b ha hb hba, (mismatch_msg_contains a b).1,
      (mismatch_msg_contains a b).2⟩,
    fun a ha => ⟨eof_general a ha, missing_msg_contains a⟩,
    by decide⟩

theorem C7_witness :
    nameWF "a" = true ∧ nameWF "b" = true ∧ ("b" : String) ≠ "a" ∧
    parseSSML ("<speak><" ++ "a" ++ "></" ++ "b" ++ "></speak>") =
      .error (.mismatchedClosingTag "a" "b") ∧
    parseSSML ("<" ++ "a" ++ ">") = .error (.missingClosingTag "a") :=
  ⟨by decide, by decide, by decide,
    (C7_closing_tag.1 "a" "b" (by decide) (by decide) (by decide)).1,
    (C7_closing_tag.2.1 "a" (by decide)).1⟩

/-- C8: the self-closing form `<name/>` yields, for any well-formed tag name,
a tag with an empty children sequence, parsing to exactly the same tree as
the explicit `<name></name>` form; the serializer never reconstructs the
shorthand: the serialization of any parsed tree never contains the
two-character sequence `/>`, and the childless `br` tag serializes as
`<br></br>`. -/
theorem C8_selfclosing :
    (∀ a : String, nameWF a = true →
      parseSSML ("<speak><" ++ a ++ "/></speak>") =
        .ok (.tag "speak" [] [.tag a [] []]) ∧
      parseSSML ("<speak><" ++ a ++ "></" ++ a ++ "></speak>") =
        .ok (.tag "speak" [] [.tag a [] []])) ∧
    (∀ (s : String) (nd : SSMLNode), parseSSML s = .ok nd →
      containsSeq ['/', '>'] (ssmlNodeToText nd).data = false) ∧
    ssmlNodeToText (.tag "br" [] []) = "<br></br>" :=
  ⟨fun a ha => ⟨selfclose_general a ha, explicit_close_general a ha⟩,
    fun s nd h => by
      have hwf := (parseSSML_ok_shape s nd h).1
      have hdd : (ssmlNodeToText nd).data = serNode nd := rfl
      rw [hdd]
      exact serNode_noSlashGt nd hwf,
    by decide⟩

theorem C8_witness :
    nameWF "br" = true ∧
    parseSSML ("<speak><" ++ "br" ++ "/></speak>") =
      .ok (.tag "speak" [] [.tag "br" [] []]) ∧
    parseSSML ("<speak><" ++ "br" ++ "></" ++ "br" ++ "></speak>") =
      .ok (.tag "speak" [] [.tag "br" [] []]) ∧
    parseSSML "<speak>x</speak>" = .ok (.tag "speak" [] [.text "x"]) ∧
    containsSeq ['/', '>'] (ssmlNodeToText (.tag "speak" [] [.text "x"])).data = false :=
  ⟨by decide, (C8_selfclosing.1 "br" (by decide)).1, (C8_selfclosing.1 "br" (by decide)).2,
    by decide, C8_selfclosing.2.1 "<speak>x</speak>" _ (by decide)⟩

/-- C10: duplicate attribute names are accepted and the last occurrence in
document order wins: for any well-formed key and values free of double
quotes, ampersands and angle brackets, `<speak k="v1" k="v2"></speak>`
parses successfully to a `speak` tag whose attribute dict holds the key
exactly once, bound to `v2`. -/
theorem C10_duplicate_attr :
    ∀ (k v1 v2 : String), attrKeyWF k = true →
      '"' ∉ v1.data → '&' ∉ v1.data → '<' ∉ v1.data → '>' ∉ v1.data →
      '"' ∉ v2.data → '&' ∉ v2.data → '<' ∉ v2.data → '>' ∉ v2.data →
      parseSSML ("<speak " ++ k ++ "=\"" ++ v1 ++ "\" " ++ k ++ "=\"" ++ v2 ++ "\"></speak>") =
        .ok (.tag "speak" [(k, v2)] []) :=
  fun k v1 v2 hk h1q h1a h1l h1g h2q h2a h2l h2g =>
    dup_attr_general k v1 v2 hk h1q h1a h1l h1g h2q h2a h2l h2g

theorem C10_witness :
    attrKeyWF "x" = true ∧
    parseSSML ("<speak " ++ "x" ++ "=\"" ++ "1" ++ "\" " ++ "x" ++ "=\"" ++ "2" ++ "\"></speak>") =
      .ok (.tag "speak" [("x", "2")] []) :=
  ⟨by decide, C10_duplicate_attr "x" "1" "2" (by decide) (by decide) (by decide) (by decide)
    (by decide) (by decide) (by decide) (by decide) (by decide)⟩
